import Mathlib

/-!
A verification development for the finite-automaton engine of the repository:
DFA simulation, minimization and equivalence checking (src/3/main.py), the
rebuild step with reachability pruning (src/3/dfa_core/dfa_core.py), the
regex-to-NFA-to-DFA pipeline (src/4/main.py), the dictionary-based NFA
simulator (src/2/main.py) and the CSV-loaded DFA runner (src/1/main.py).

Python sets are modelled as lists enumerated in a fixed canonical order; the
source iterates sets in an unspecified order, so a fixed enumeration is a
sound refinement of it.  State names (strings such as "C0", "B1", "q2") are
modelled as natural numbers.  Python dictionaries with missing keys are
modelled as Option-valued functions.  A raised ValueError is modelled as an
Except.error result.  Loops whose termination is not structural are given a
fuel argument; theorems either choose a provably sufficient fuel or take the
completed run as a hypothesis, witnessed on concrete inputs.
-/

namespace Auto

/-- Deterministic automaton as in src/3/main.py and src/4/main.py: a set of
states, an alphabet of single-character symbols, a partial transition table
(a missing dictionary entry is none), a start state and an accepting set. -/
structure DFA where
  states : List Nat
  alphabet : List Char
  trans : Nat → Char → Option Nat
  start : Nat
  accept : List Nat

/-- DFA.process_input of src/3/main.py (the same logic appears in
src/4/main.py): walk the string, raising when a symbol is outside the
alphabet and rejecting when a transition is missing. -/
def processFrom (d : DFA) : Nat → List Char → Except Unit Bool
  | q, [] => .ok (d.accept.contains q)
  | q, c :: s =>
    if c ∈ d.alphabet then
      match d.trans q c with
      | some t => processFrom d t s
      | none => .ok false
    else .error ()

def processInput (d : DFA) (s : List Char) : Except Unit Bool :=
  processFrom d d.start s

/-- The language of a state with the alphabet check dropped: a missing
transition rejects.  On strings over the alphabet this agrees with
processFrom (langFrom_processFrom below). -/
def langFrom (d : DFA) : Nat → List Char → Bool
  | q, [] => d.accept.contains q
  | q, c :: s =>
    match d.trans q c with
    | some t => langFrom d t s
    | none => false

/-- Structural well-formedness matching the data-model invariants of the
source: no duplicate states, the start state is a state, alphabet
transitions stay inside the state set, accepting states are states. -/
def WF (d : DFA) : Prop :=
  d.states.Nodup ∧ d.start ∈ d.states ∧
    (∀ q ∈ d.states, ∀ a ∈ d.alphabet,
      (d.trans q a).all (fun t => d.states.contains t) = true) ∧
    ∀ q ∈ d.accept, q ∈ d.states

/-- Totality: every state has a transition on every alphabet symbol. -/
def Total (d : DFA) : Prop :=
  ∀ q ∈ d.states, ∀ a ∈ d.alphabet, (d.trans q a).isSome = true

/-- transitions[q].get(a, q): the successor with a missing transition
defaulting to the state itself, used by both minimizers and by the
equivalence BFS of src/3/main.py. -/
def succD (d : DFA) (q : Nat) (a : Char) : Nat :=
  (d.trans q a).getD q

/-- Initial partition of both minimizers in src/3/main.py: accepting states,
then the remaining states, dropping an empty group.  Blocks are kept as
order-preserving sublists of the canonical state list. -/
def initPartition (d : DFA) : List (List Nat) :=
  ([d.states.filter (fun q => d.accept.contains q),
    d.states.filter (fun q => !d.accept.contains q)]).filter (fun b => !b.isEmpty)

/-- Index of the first partition block containing a state. -/
def blockIdx : List (List Nat) → Nat → Option Nat
  | [], _ => none
  | b :: rest, q =>
    if b.contains q then some 0 else (blockIdx rest q).map (· + 1)

/-- Signature of a state with respect to a partition, as in
minimize_dfa_table: for each alphabet symbol, the index of the block holding
the (self-loop defaulted) successor; a successor lying in no block adds no
entry, exactly as the inner search loop of the source appends nothing. -/
def signature (d : DFA) (P : List (List Nat)) (q : Nat) : List Nat :=
  d.alphabet.filterMap (fun a => blockIdx P (succD d q a))

/-- Append a state to the bucket of its signature, keeping buckets in first
discovery order (Python dict insertion order). -/
def addToBuckets (sig : List Nat) (q : Nat) :
    List (List Nat × List Nat) → List (List Nat × List Nat)
  | [] => [(sig, [q])]
  | (s, b) :: rest =>
    if s = sig then (s, b ++ [q]) :: rest else (s, b) :: addToBuckets sig q rest

/-- Group a block by signature. -/
def bucketsOf (d : DFA) (P : List (List Nat)) (group : List Nat) :
    List (List Nat × List Nat) :=
  group.foldl (fun acc q => addToBuckets (signature d P q) q acc) []

/-- Replacement of a block in one refinement pass: a block of at most one
state is kept, a larger block is replaced by its signature buckets. -/
def splitGroup (d : DFA) (P : List (List Nat)) (g : List Nat) : List (List Nat) :=
  if g.length ≤ 1 then [g] else (bucketsOf d P g).map (fun x => x.2)

/-- One pass of the refinement loop of minimize_dfa_table: split every block
of more than one state by signature (the source appends the pieces group by
group, which is exactly the flattened map); the flag records whether any
block produced more than one bucket. -/
def refineOnce (d : DFA) (P : List (List Nat)) : List (List Nat) × Bool :=
  ((P.map (splitGroup d P)).flatten,
   P.any (fun g => !(decide (g.length ≤ 1)) && decide (1 < (bucketsOf d P g).length)))

/-- The while-changed loop of minimize_dfa_table, with fuel; fuel
d.states.length + 1 is proved sufficient below. -/
def refineLoop (d : DFA) : Nat → List (List Nat) → List (List Nat)
  | 0, P => P
  | fuel + 1, P =>
    let r := refineOnce d P
    if r.2 then refineLoop d fuel r.1 else r.1

/-- Index of the block of a state (state_to_class / state_to_block); the
source would raise a KeyError where this defaults, which never happens on
the partitions produced from well-formed input. -/
def classIdx (P : List (List Nat)) (q : Nat) : Nat :=
  (blockIdx P q).getD 0

/-- Transition table of the rebuilt automaton: block i moves on a to the
block of the representative successor; the representative is the head of the
canonical block (next(iter(group)) in the source picks an unspecified
member). -/
def quotTrans (d : DFA) (P : List (List Nat)) (i : Nat) (a : Char) : Option Nat :=
  if a ∈ d.alphabet then
    match P.get? i with
    | some b =>
      match d.trans (b.headD 0) a with
      | some t => blockIdx P t
      | none => none
    | none => none
  else none

/-- The block-to-new-state construction shared by minimize_dfa_table and
minimize_dfa_hopcroft in src/3/main.py: block i becomes state i ("C" / "B"
naming abstracted to indices), a block accepts iff it contains an accepting
state.  No reachability pruning is performed here. -/
def buildQuotient (d : DFA) (P : List (List Nat)) : DFA :=
  { states := List.range P.length
    alphabet := d.alphabet
    trans := quotTrans d P
    start := classIdx P d.start
    accept := (List.range P.length).filter
      (fun i => ((P.get? i).getD []).any (fun q => d.accept.contains q)) }

/-- minimize_dfa_table of src/3/main.py. -/
def minimizeTable (d : DFA) : DFA :=
  buildQuotient d (refineLoop d (d.states.length + 1) (initPartition d))

/-- The worklist update of src/3/main.py when block Y splits: a split block
found on the worklist is replaced there by both halves, otherwise the
smaller half (the intersection on ties) is pushed. -/
def hopNewW (X Y : List Nat) (W : List (List Nat)) : List (List Nat) :=
  if W.contains Y then
    (W.erase Y) ++ [Y.filter (fun q => X.contains q), Y.filter (fun q => !X.contains q)]
  else if (Y.filter (fun q => X.contains q)).length
      ≤ (Y.filter (fun q => !X.contains q)).length then
    W ++ [Y.filter (fun q => X.contains q)]
  else W ++ [Y.filter (fun q => !X.contains q)]

/-- One traversal of the partition list splitting by the predecessor set X,
threading the Hopcroft worklist as it goes. -/
def hopSplit (X : List Nat) :
    List (List Nat) → List (List Nat) → List (List Nat) × List (List Nat)
  | [], W => ([], W)
  | Y :: Ps, W =>
    if (Y.filter (fun q => X.contains q)).isEmpty
        || (Y.filter (fun q => !X.contains q)).isEmpty then
      let r := hopSplit X Ps W
      (Y :: r.1, r.2)
    else
      let r := hopSplit X Ps (hopNewW X Y W)
      (Y.filter (fun q => X.contains q) :: Y.filter (fun q => !X.contains q) :: r.1, r.2)

/-- Processing of one alphabet symbol for a popped splitter A: X is the set
of states whose (self-loop defaulted) successor lies in A. -/
def hopSym (d : DFA) (A : List Nat)
    (PW : List (List Nat) × List (List Nat)) (a : Char) :
    List (List Nat) × List (List Nat) :=
  hopSplit (d.states.filter (fun q => A.contains (succD d q a))) PW.1 PW.2

/-- Processing of all alphabet symbols for a popped splitter A. -/
def hopProcess (d : DFA) (A : List Nat)
    (PW : List (List Nat) × List (List Nat)) :
    List (List Nat) × List (List Nat) :=
  d.alphabet.foldl (hopSym d A) PW

/-- The worklist loop of minimize_dfa_hopcroft, with fuel; fuel
2 * d.states.length + 2 is proved sufficient below. -/
def hopLoop (d : DFA) : Nat → List (List Nat) → List (List Nat) → List (List Nat)
  | 0, P, _ => P
  | _ + 1, P, [] => P
  | fuel + 1, P, A :: W =>
    let r := hopProcess d A (P, W)
    hopLoop d fuel r.1 r.2

/-- minimize_dfa_hopcroft of src/3/main.py. -/
def minimizeHopcroft (d : DFA) : DFA :=
  buildQuotient d (hopLoop d (2 * d.states.length + 2) (initPartition d) (initPartition d))

/-- Verdicts of are_equivalent; fuelOut only marks an unfinished run of the
fuelled embedding and is proved unreachable where used. -/
inductive EqvAnswer
  | mismatch
  | equivalent
  | distinguished (path : List Char)
  | fuelOut
deriving DecidableEq

/-- Set equality of the two alphabets, as the dfa1.alphabet != dfa2.alphabet
guard of are_equivalent. -/
def alphaSetEq (d1 d2 : DFA) : Bool :=
  d1.alphabet.all (fun a => d2.alphabet.contains a) &&
    d2.alphabet.all (fun a => d1.alphabet.contains a)

/-- One BFS expansion of are_equivalent: for each alphabet symbol enqueue
the successor pair; a fresh pair is marked visited even when the depth bound
stops it from being enqueued, exactly as in the source. -/
def eqvStep (d1 d2 : DFA) (maxDepth : Nat) (q1 q2 : Nat) (path : List Char)
    (visited : List (Nat × Nat)) (queue : List ((Nat × Nat) × List Char)) :
    List (Nat × Nat) × List ((Nat × Nat) × List Char) :=
  d1.alphabet.foldl
    (fun acc a =>
      let p := (succD d1 q1 a, succD d2 q2 a)
      if acc.1.contains p then acc
      else if path.length < maxDepth then (acc.1 ++ [p], acc.2 ++ [(p, path ++ [a])])
      else (acc.1 ++ [p], acc.2))
    (visited, queue)

/-- The BFS loop of are_equivalent over pairs of states. -/
def eqvLoop (d1 d2 : DFA) (maxDepth : Nat) :
    Nat → List (Nat × Nat) → List ((Nat × Nat) × List Char) → EqvAnswer
  | 0, _, _ => .fuelOut
  | _ + 1, _, [] => .equivalent
  | fuel + 1, visited, ((q1, q2), path) :: queue =>
    if d1.accept.contains q1 != d2.accept.contains q2 then .distinguished path
    else
      let r := eqvStep d1 d2 maxDepth q1 q2 path visited queue
      eqvLoop d1 d2 maxDepth fuel r.1 r.2

/-- are_equivalent of src/3/main.py called without test strings, with its
default depth bound max_depth = 10. -/
def areEquivalent (d1 d2 : DFA) (fuel : Nat) : EqvAnswer :=
  if alphaSetEq d1 d2 then
    eqvLoop d1 d2 10 fuel [(d1.start, d2.start)] [((d1.start, d2.start), [])]
  else .mismatch

/-- Reachability from the start state along alphabet transitions. -/
inductive Reachable (d : DFA) : Nat → Prop
  | start : Reachable d d.start
  | step : ∀ q a t, Reachable d q → a ∈ d.alphabet → d.trans q a = some t →
      Reachable d t

end Auto

namespace Util

/-- Worklist push: add each element that is not yet in the visited list to
both the stack and the visited list (the inner loop of every stack-based
closure in the source). -/
def pushNew (ts : List Nat) (stack closure : List Nat) : List Nat × List Nat :=
  ts.foldl
    (fun acc t => if acc.2.contains t then acc else (acc.1 ++ [t], acc.2 ++ [t]))
    (stack, closure)

/-- Insert into a sorted duplicate-free list of state ids. -/
def insertSorted (x : Nat) : List Nat → List Nat
  | [] => [x]
  | y :: rest =>
    if x = y then y :: rest
    else if x < y then x :: y :: rest
    else y :: insertSorted x rest

/-- Canonical (sorted, duplicate-free) representation of a set of state
ids; the value-level key a Python frozenset provides. -/
def canon (l : List Nat) : List Nat :=
  l.foldl (fun acc x => insertSorted x acc) []

end Util


namespace Src4

/-- One NFA state of src/4/main.py: transitions keyed by symbol in key
insertion order (defaultdict(set), sets of target ids kept as first-added
order lists), epsilon successors, and the is_final flag. -/
structure NState where
  id : Nat
  symTrans : List (Char × List Nat)
  eps : List Nat
  final : Bool
deriving DecidableEq

/-- The NFA of src/4/main.py holds only its start and end states; the whole
state graph lives in the arena of created State objects, modelled here as an
explicit node list (the process-wide State.counter is modelled as a counter
starting at 0 for each build, as ids are never compared across builds). -/
structure NFA where
  nodes : List NState
  start : Nat
  endId : Nat
deriving DecidableEq

def findNode (ns : List NState) (i : Nat) : Option NState :=
  ns.find? (fun n => n.id == i)

/-- state.transitions[c], the empty set for a missing key. -/
def transOf (ns : List NState) (i : Nat) (c : Char) : List Nat :=
  match findNode ns i with
  | some n => (((n.symTrans.find? (fun p => p.1 == c)).map Prod.snd).getD [])
  | none => []

def epsOf (ns : List NState) (i : Nat) : List Nat :=
  match findNode ns i with
  | some n => n.eps
  | none => []

def updNode (ns : List NState) (i : Nat) (f : NState → NState) : List NState :=
  ns.map (fun n => if n.id == i then f n else n)

/-- State.add_transition: transitions[symbol].add(state). -/
def addTransNode (c : Char) (t : Nat) (n : NState) : NState :=
  { n with symTrans :=
      if (n.symTrans.find? (fun p => p.1 == c)).isSome then
        n.symTrans.map (fun p => if p.1 == c then (p.1, if t ∈ p.2 then p.2 else p.2 ++ [t]) else p)
      else n.symTrans ++ [(c, [t])] }

/-- State.add_epsilon: epsilon_transitions.add(state). -/
def addEpsNode (t : Nat) (n : NState) : NState :=
  { n with eps := if t ∈ n.eps then n.eps else n.eps ++ [t] }

def setFinalNode (b : Bool) (n : NState) : NState :=
  { n with final := b }

/-- A Thompson fragment: its dangling start and final state. -/
structure Frag where
  startId : Nat
  endId : Nat
deriving DecidableEq

/-- Builder state: the id counter, the arena and the operand stack. -/
structure BuildSt where
  counter : Nat
  nodes : List NState
  stack : List Frag
deriving DecidableEq

/-- Allocate a fresh State(is_final = b). -/
def newState (b : Bool) (st : BuildSt) : Nat × BuildSt :=
  (st.counter,
   { st with counter := st.counter + 1,
             nodes := st.nodes ++ [{ id := st.counter, symTrans := [], eps := [], final := b }] })

def opChars : List Char := ['|', '*', '(', ')', '.', '+']

/-- One token of Thompson's construction in build_nfa_from_postfix of
src/4/main.py.  The source iterates the characters of the joined postfix
string, so every token is a single character and the two-character escape
branch is dead code; a backslash reaching this stage is handled by the
ordinary-symbol branch.  Tokens '(' and ')' match no branch and are
ignored, as in the source. -/
def buildTok (st : BuildSt) (c : Char) : Except Unit BuildSt :=
  if c ∉ opChars then
    let r1 := newState false st
    let r2 := newState true r1.2
    let st2 := r2.2
    let st3 := { st2 with nodes := updNode st2.nodes r1.1 (addTransNode c r2.1) }
    .ok { st3 with stack := Frag.mk r1.1 r2.1 :: st3.stack }
  else if c == '|' then
    match st.stack with
    | f2 :: f1 :: rest =>
      let r1 := newState false st
      let r2 := newState true r1.2
      let st2 := r2.2
      let ns := st2.nodes
      let ns := updNode ns r1.1 (addEpsNode f1.startId)
      let ns := updNode ns r1.1 (addEpsNode f2.startId)
      let ns := updNode ns f1.endId (setFinalNode false)
      let ns := updNode ns f2.endId (setFinalNode false)
      let ns := updNode ns f1.endId (addEpsNode r2.1)
      let ns := updNode ns f2.endId (addEpsNode r2.1)
      .ok { st2 with nodes := ns, stack := Frag.mk r1.1 r2.1 :: rest }
    | _ => .error ()
  else if c == '.' then
    match st.stack with
    | f2 :: f1 :: rest =>
      let ns := st.nodes
      let ns := updNode ns f1.endId (setFinalNode false)
      let ns := updNode ns f1.endId (addEpsNode f2.startId)
      .ok { st with nodes := ns, stack := Frag.mk f1.startId f2.endId :: rest }
    | _ => .error ()
  else if c == '*' then
    match st.stack with
    | f :: rest =>
      let r1 := newState false st
      let r2 := newState true r1.2
      let st2 := r2.2
      let ns := st2.nodes
      let ns := updNode ns r1.1 (addEpsNode f.startId)
      let ns := updNode ns r1.1 (addEpsNode r2.1)
      let ns := updNode ns f.endId (setFinalNode false)
      let ns := updNode ns f.endId (addEpsNode f.startId)
      let ns := updNode ns f.endId (addEpsNode r2.1)
      .ok { st2 with nodes := ns, stack := Frag.mk r1.1 r2.1 :: rest }
    | _ => .error ()
  else if c == '+' then
    match st.stack with
    | f :: rest =>
      let r1 := newState false st
      let r2 := newState true r1.2
      let st2 := r2.2
      let ns := st2.nodes
      let ns := updNode ns r1.1 (addEpsNode f.startId)
      let ns := updNode ns f.endId (setFinalNode false)
      let ns := updNode ns f.endId (addEpsNode f.startId)
      let ns := updNode ns f.endId (addEpsNode r2.1)
      .ok { st2 with nodes := ns, stack := Frag.mk r1.1 r2.1 :: rest }
    | _ => .error ()
  else
    .ok st

def buildToks : List Char → BuildSt → Except Unit BuildSt
  | [], st => .ok st
  | c :: rest, st =>
    match buildTok st c with
    | .ok st2 => buildToks rest st2
    | .error e => .error e

/-- build_nfa_from_postfix of src/4/main.py: the empty postfix yields the
two-state epsilon NFA, otherwise Thompson's construction runs over the
postfix characters and exactly one fragment must remain. -/
def buildNfaFromRpn (out : List Char) : Except Unit NFA :=
  if out.isEmpty then
    let st0 : BuildSt := { counter := 0, nodes := [], stack := [] }
    let r1 := newState false st0
    let r2 := newState true r1.2
    let st2 := r2.2
    .ok { nodes := updNode st2.nodes r1.1 (addEpsNode r2.1), start := r1.1, endId := r2.1 }
  else
    match buildToks out { counter := 0, nodes := [], stack := [] } with
    | .ok st =>
      match st.stack with
      | [f] => .ok { nodes := st.nodes, start := f.startId, endId := f.endId }
      | _ => .error ()
    | .error e => .error e

/-- NFA.epsilon_closure of src/4/main.py: explicit worklist with a visited
set, cycle-safe; the list order is one fixed enumeration of the set the
source computes. -/
def epsClosureAux (ns : List NState) : Nat → List Nat → List Nat → List Nat
  | 0, _, closure => closure
  | _ + 1, [], closure => closure
  | fuel + 1, q :: stack, closure =>
    let r := Util.pushNew (epsOf ns q) stack closure
    epsClosureAux ns fuel r.1 r.2

/-- Fuel visibly sufficient for the closure worklist: every pop consumes one
stack entry and pushes only states never seen before. -/
def epsFuelBound (ns : List NState) (init : List Nat) : Nat :=
  init.length + (ns.map (fun n => n.eps.length)).sum + 1

def epsClosureOf (ns : List NState) (init : List Nat) : List Nat :=
  epsClosureAux ns (epsFuelBound ns init) init init

/-- Outcomes of the regex front end: ok, a raised ValueError, or the
non-terminating loop the scanner enters on a trailing backslash. -/
inductive RpnResult
  | ok (out : List Char)
  | err
  | looping
deriving DecidableEq

def prec (c : Char) : Nat :=
  if c == '|' then 1 else if c == '.' then 2
  else if c == '*' || c == '+' then 3 else 0

def canEndOperand (c : Char) : Bool :=
  !(c ∈ opChars) || c == '*' || c == '+' || c == ')'

def canBeginOperand (c : Char) : Bool :=
  !(c ∈ opChars) || c == '('

/-- add_concat_operator of src/4/main.py: insert an explicit '.' between an
operand end and an operand begin.  The scan is unaware of escapes, so a '.'
is inserted between a backslash and the character it escapes. -/
def addConcat : List Char → List Char
  | [] => []
  | [c] => [c]
  | c1 :: c2 :: rest =>
    if canEndOperand c1 && canBeginOperand c2 then c1 :: '.' :: addConcat (c2 :: rest)
    else c1 :: addConcat (c2 :: rest)

/-- Pop operators of no lower precedence (stopping at a left parenthesis),
returning the popped operators and the remaining stack. -/
def popWhileGE (c : Char) : List Char → List Char × List Char
  | [] => ([], [])
  | t :: rest =>
    if t != '(' && prec t ≥ prec c then
      let r := popWhileGE c rest
      (t :: r.1, r.2)
    else ([], t :: rest)

/-- Pop up to and including the matching left parenthesis; none when there
is no left parenthesis on the stack (the mismatched-parentheses raise). -/
def popToParen : List Char → Option (List Char × List Char)
  | [] => none
  | t :: rest =>
    if t == '(' then some ([], rest)
    else (popToParen rest).map (fun r => (t :: r.1, r.2))

/-- The scanning loop of to_postfix in src/4/main.py.  The escape branch
consumes two characters when one follows the backslash; when the backslash
is the last character the source executes continue without advancing the
index and loops forever, modelled by the looping outcome. -/
def rpnScan : List Char → List Char → List Char → RpnResult
  | [], stack, out => if stack.contains '(' then .err else .ok (out ++ stack)
  | c :: rest, stack, out =>
    if c == '\\' then
      match rest with
      | c2 :: rest2 => rpnScan rest2 stack (out ++ [c, c2])
      | [] => .looping
    else if c ∉ opChars then rpnScan rest stack (out ++ [c])
    else if c == '(' then rpnScan rest ('(' :: stack) out
    else if c == ')' then
      match popToParen stack with
      | some r => rpnScan rest r.2 (out ++ r.1)
      | none => .err
    else
      let r := popWhileGE c stack
      rpnScan rest (c :: r.2) (out ++ r.1)

/-- to_postfix of src/4/main.py. -/
def toRpn (regex : List Char) : RpnResult :=
  if regex.isEmpty then .ok [] else rpnScan (addConcat regex) [] []

/-- Outcomes of the regex-to-NFA pipeline (to_postfix followed by
build_nfa_from_postfix, the first half of regex_to_dfa). -/
inductive CompileResult
  | ok (n : NFA)
  | err
  | looping
deriving DecidableEq

def compileRegex (regex : List Char) : CompileResult :=
  match toRpn regex with
  | .ok out =>
    match buildNfaFromRpn out with
    | .ok n => .ok n
    | .error _ => .err
  | .err => .err
  | .looping => .looping

/-- Working state of the subset construction in nfa_to_dfa of
src/4/main.py: the worklist queue of canonical NFA-state sets, the
state_map association list, the discovery-ordered dfa_states list, the
accepting ids and the transition table. -/
structure SubsetSt where
  queue : List (List Nat)
  stMap : List (List Nat × Nat)
  dStates : List (List Nat)
  dAccept : List Nat
  dTrans : List ((Nat × Char) × Nat)
deriving DecidableEq

def lookupSet (m : List (List Nat × Nat)) (k : List Nat) : Option Nat :=
  (m.find? (fun e => e.1 == k)).map (fun e => e.2)

/-- Union of transitions[symbol] over a set of NFA states. -/
def moveSet (ns : List NState) (S : List Nat) (a : Char) : List Nat :=
  S.flatMap (fun q => transOf ns q a)

/-- Step 2 of nfa_to_dfa: the DFA alphabet is collected from the states of
dfa_states, which at that point holds only the start closure; the 'a'
placeholder is added when the collection is empty. -/
def alphabetOf (ns : List NState) (startSet : List Nat) : List Char :=
  let syms := (startSet.flatMap (fun q =>
    match findNode ns q with
    | some n => n.symTrans.map Prod.fst
    | none => [])).dedup
  if syms.isEmpty then ['a'] else syms

/-- Handling of one alphabet symbol for the dequeued set S: an empty move
set writes no transition, a known target set reuses its id, a new target
set is numbered len(dfa_states) and enqueued. -/
def subsetSym (ns : List NState) (S : List Nat) (curId : Nat)
    (st : SubsetSt) (a : Char) : SubsetSt :=
  let mv := moveSet ns S a
  if mv.isEmpty then st
  else
    let nxt := Util.canon (epsClosureOf ns mv)
    match lookupSet st.stMap nxt with
    | some j => { st with dTrans := st.dTrans ++ [((curId, a), j)] }
    | none =>
      let j := st.dStates.length
      { st with
          stMap := st.stMap ++ [(nxt, j)]
          dStates := st.dStates ++ [nxt]
          queue := st.queue ++ [nxt]
          dTrans := st.dTrans ++ [((curId, a), j)] }

/-- The worklist loop of nfa_to_dfa; none on fuel exhaustion. -/
def subsetLoop (ns : List NState) (alphabet : List Char) :
    Nat → SubsetSt → Option SubsetSt
  | 0, st => if st.queue.isEmpty then some st else none
  | fuel + 1, st =>
    match st.queue with
    | [] => some st
    | S :: rest =>
      let curId := (lookupSet st.stMap S).getD 0
      let acc2 :=
        if S.any (fun q => (findNode ns q).elim false NState.final) then
          st.dAccept ++ [curId]
        else st.dAccept
      subsetLoop ns alphabet fuel
        (alphabet.foldl (subsetSym ns S curId) { st with queue := rest, dAccept := acc2 })

/-- The full run of nfa_to_dfa before the DFA object is assembled. -/
def determinizeRun (n : NFA) (fuel : Nat) : Option SubsetSt :=
  let startSet := Util.canon (epsClosureOf n.nodes [n.start])
  subsetLoop n.nodes (alphabetOf n.nodes startSet) fuel
    { queue := [startSet], stMap := [(startSet, 0)], dStates := [startSet],
      dAccept := [], dTrans := [] }

/-- nfa_to_dfa of src/4/main.py. -/
def nfaToDfa (n : NFA) (fuel : Nat) : Option Auto.DFA :=
  let startSet := Util.canon (epsClosureOf n.nodes [n.start])
  (determinizeRun n fuel).map (fun st =>
    { states := List.range st.dStates.length
      alphabet := alphabetOf n.nodes startSet
      trans := fun q c => (st.dTrans.find? (fun e => e.1 == (q, c))).map (fun e => e.2)
      start := 0
      accept := st.dAccept })

/-- The non-epsilon symbols appearing anywhere in the NFA, written from the
words of the claim for comparison with the alphabet the source computes. -/
def allSymbols (n : NFA) : List Char :=
  (n.nodes.flatMap (fun node => node.symTrans.map Prod.fst)).dedup

/-- The symbols on transitions of states in the epsilon-closure of the
start state, written from the amended wording. -/
def startClosureSymbols (n : NFA) : List Char :=
  ((Util.canon (epsClosureOf n.nodes [n.start])).flatMap (fun q =>
    match findNode n.nodes q with
    | some node => node.symTrans.map Prod.fst
    | none => [])).dedup

/-- DFA.process_input_with_trace of src/4/main.py: raise on a symbol
outside the alphabet, stop the path and reject on a missing transition. -/
def processWithTrace (d : Auto.DFA) : Nat → List Char → List Nat →
    Except Unit (Bool × List Nat)
  | q, [], path => .ok (d.accept.contains q, path)
  | q, c :: s, path =>
    if c ∈ d.alphabet then
      match d.trans q c with
      | some t => processWithTrace d t s (path ++ [t])
      | none => .ok (false, path)
    else .error ()

def processInputWithTrace (d : Auto.DFA) (s : List Char) :
    Except Unit (Bool × List Nat) :=
  processWithTrace d d.start s [d.start]

end Src4

namespace Src2

/-- The dictionary-based NFA of src/2/main.py: transitions[state][symbol]
is a set of targets, with the epsilon symbol sharing the symbol space. -/
structure NFA2 where
  alphabet : List Char
  trans : Nat → Char → List Nat
  start : Nat
  accept : List Nat

/-- epsilon_closure of src/2/main.py: worklist with a visited set over
transitions[state]['ε']. -/
def epsClosureAux (m : NFA2) : Nat → List Nat → List Nat → List Nat
  | 0, _, closure => closure
  | _ + 1, [], closure => closure
  | fuel + 1, q :: stack, closure =>
    let r := Util.pushNew (m.trans q 'ε') stack closure
    epsClosureAux m fuel r.1 r.2

def epsClosure (m : NFA2) (init : List Nat) (fuel : Nat) : List Nat :=
  epsClosureAux m fuel init init

/-- The symbol loop of NFA.process_input in src/2/main.py: a symbol neither
in the alphabet nor equal to 'ε' raises; an empty active set after closing
rejects. -/
def processFrom (m : NFA2) (fuel : Nat) : List Nat → List Char → Except Unit Bool
  | cur, [] => .ok (cur.any (fun q => m.accept.contains q))
  | cur, c :: s =>
    if c ∈ m.alphabet ∨ c = 'ε' then
      let cl := epsClosure m (cur.flatMap (fun q => m.trans q c)) fuel
      if cl.isEmpty then .ok false else processFrom m fuel cl s
    else .error ()

/-- NFA.process_input of src/2/main.py. -/
def processInput (m : NFA2) (s : List Char) (fuel : Nat) : Except Unit Bool :=
  processFrom m fuel (epsClosure m [m.start] fuel) s

end Src2

namespace Src1

/-- The CSV-loaded DFA of src/1/main.py: the keys of the states dictionary,
the alphabet column list, per-state transition rows (an empty target cell
and a missing row entry are merged into none, both rejecting), the start
state and the final-state set. -/
structure DFA1 where
  stKeys : List Nat
  alphabet : List Char
  trans : Nat → Char → Option Nat
  start : Nat
  final : List Nat

/-- The walk of DFA.validate_string in src/1/main.py: an out-of-alphabet
symbol, an unknown current state and a missing target all stop the state
sequence at the last valid state and reject; nothing is raised. -/
def validateAux (d : DFA1) : Nat → List Char → List Nat → Bool × List Nat
  | q, [], path => (d.final.contains q, path)
  | q, c :: s, path =>
    if c ∈ d.alphabet then
      if q ∈ d.stKeys then
        match d.trans q c with
        | some t => validateAux d t s (path ++ [t])
        | none => (false, path)
      else (false, path)
    else (false, path)

/-- DFA.validate_string of src/1/main.py. -/
def validateString (d : DFA1) (s : List Char) : Bool × List Nat :=
  validateAux d d.start s [d.start]

/-- The run contract of section 6 of the specification, written from its
words: trace[0] is the start state, trace[i] the state after the i-th
symbol, and a symbol outside the alphabet (or, on these partial automata, a
missing transition) stops the trace at the last valid state with accepted
false. -/
def specTraceRun (alphabet : List Char) (step : Nat → Char → Option Nat)
    (isAcc : Nat → Bool) : Nat → List Char → Bool × List Nat
  | q, [] => (isAcc q, [q])
  | q, c :: s =>
    if c ∈ alphabet then
      match step q c with
      | some t =>
        let r := specTraceRun alphabet step isAcc t s
        (r.1, q :: r.2)
      | none => (false, [q])
    else (false, [q])

end Src1

namespace Core3

/-- DFA.reachable_states of src/3/dfa_core/dfa_core.py: depth-first
worklist from the start state following every alphabet symbol; the source
indexes a total transition table, a missing entry is skipped here.  none on
fuel exhaustion. -/
def reachAux (d : Auto.DFA) : Nat → List Nat → List Nat → Option (List Nat)
  | 0, stack, reach => if stack.isEmpty then some reach else none
  | _ + 1, [], reach => some reach
  | fuel + 1, q :: stack, reach =>
    if reach.contains q then reachAux d fuel stack reach
    else reachAux d fuel (d.alphabet.filterMap (fun a => d.trans q a) ++ stack) (reach ++ [q])

def reachableStates (d : Auto.DFA) (fuel : Nat) : Option (List Nat) :=
  reachAux d fuel [d.start] []

/-- build_new_dfa of src/3/dfa_core/dfa_core.py before pruning: block i is
state i; a block accepts iff its representative (the head) accepts. -/
def preQuotient (d : Auto.DFA) (P : List (List Nat)) : Auto.DFA :=
  { states := List.range P.length
    alphabet := d.alphabet
    trans := Auto.quotTrans d P
    start := Auto.classIdx P d.start
    accept := (List.range P.length).filter
      (fun i => d.accept.contains (((P.get? i).getD []).headD 0)) }

/-- build_new_dfa of src/3/dfa_core/dfa_core.py: rebuild from the partition,
then discard states unreachable from the new start, restrict the transition
table to the reachable states and intersect the accept set with them. -/
def buildNewDfa (d : Auto.DFA) (P : List (List Nat)) (fuel : Nat) :
    Option Auto.DFA :=
  let pre := preQuotient d P
  (reachableStates pre fuel).map (fun reach =>
    { pre with
        states := reach
        trans := fun q c => if reach.contains q then pre.trans q c else none
        accept := pre.accept.filter (fun q => reach.contains q) })

end Core3

namespace Auto

/-- Two states accept the same strings over the alphabet (Myhill–Nerode
equivalence on states). -/
def NerodeEq (d : DFA) (p q : Nat) : Prop :=
  ∀ s : List Char, (∀ c ∈ s, c ∈ d.alphabet) → langFrom d p s = langFrom d q s

/-- The partition shape kept by both minimizers: nonempty blocks whose
concatenation enumerates the state set exactly. -/
def PartOf (d : DFA) (P : List (List Nat)) : Prop :=
  (∀ b ∈ P, b ≠ []) ∧ P.flatten.Perm d.states

/-- Every block is uniformly accepting or uniformly rejecting. -/
def AccUniform (d : DFA) (P : List (List Nat)) : Prop :=
  ∀ b ∈ P, ∀ p ∈ b, ∀ q ∈ b, d.accept.contains p = d.accept.contains q

/-- A set of states closed under Nerode equivalence inside the state set. -/
def SatSet (d : DFA) (S : List Nat) : Prop :=
  ∀ p ∈ S, ∀ q ∈ d.states, NerodeEq d p q → q ∈ S

/-- Every block is a union of Nerode classes: refinement never separates
equivalent states. -/
def SatBlocks (d : DFA) (P : List (List Nat)) : Prop :=
  ∀ b ∈ P, SatSet d b

/-- Stability: states sharing a block send every alphabet symbol into one
common block (with the self-loop default of the source). -/
def Stable (d : DFA) (P : List (List Nat)) : Prop :=
  ∀ b ∈ P, ∀ p ∈ b, ∀ q ∈ b, ∀ a ∈ d.alphabet,
    blockIdx P (succD d p a) = blockIdx P (succD d q a)

/-- The bundle both refinement loops are proved to deliver. -/
def GoodFinal (d : DFA) (P : List (List Nat)) : Prop :=
  PartOf d P ∧ AccUniform d P ∧ SatBlocks d P ∧ Stable d P

/-- Two states lie in one common block. -/
def SameBlock (P : List (List Nat)) (p q : Nat) : Prop :=
  ∃ b ∈ P, p ∈ b ∧ q ∈ b

/-- A worklist entry separates the successors of p and q on a. -/
def Sep (S : List Nat) (t1 t2 : Nat) : Prop :=
  (t1 ∈ S ∧ t2 ∉ S) ∨ (t2 ∈ S ∧ t1 ∉ S)

/-- The Hopcroft worklist invariant: whenever two states of one block have
successors separated by the partition, some worklist entry separates those
successors. -/
def SepWitness (d : DFA) (P W : List (List Nat)) : Prop :=
  ∀ b ∈ P, ∀ p ∈ b, ∀ q ∈ b, ∀ a ∈ d.alphabet,
    ¬ SameBlock P (succD d p a) (succD d q a) →
    ∃ S ∈ W, Sep S (succD d p a) (succD d q a)

/-- Every block lies inside or outside X (no block is split by X). -/
def AllOrNothing (P : List (List Nat)) (X : List Nat) : Prop :=
  ∀ b ∈ P, (∀ x ∈ b, x ∈ X) ∨ ∀ x ∈ b, x ∉ X

/-- The predecessor set computed for a splitter A and a symbol, with the
self-loop default of the source. -/
def predSet (d : DFA) (A : List Nat) (a : Char) : List Nat :=
  d.states.filter (fun q => A.contains (succD d q a))

/-- P2 refines P: every new block sits inside an old one. -/
def Refines (P2 P : List (List Nat)) : Prop :=
  ∀ b2 ∈ P2, ∃ b ∈ P, ∀ x ∈ b2, x ∈ b

/-- Scenario-3 automaton of the specification, made total: three mutually
distinguishable states over symbols a and b. -/
def dEx3 : DFA :=
  { states := [0, 1, 2]
    alphabet := ['a', 'b']
    trans := fun q c =>
      if q = 0 then (if c = 'a' then some 1 else if c = 'b' then some 0 else none)
      else if q = 1 then (if c = 'a' then some 1 else if c = 'b' then some 2 else none)
      else if q = 2 then (if c = 'a' then some 2 else if c = 'b' then some 2 else none)
      else none
    start := 0
    accept := [2] }

/-- A total DFA over one symbol with two mergeable accepting states. -/
def dMerge : DFA :=
  { states := [0, 1, 2]
    alphabet := ['a']
    trans := fun q c =>
      if c = 'a' then
        (if q = 0 then some 1 else if q = 1 then some 2 else if q = 2 then some 1 else none)
      else none
    start := 0
    accept := [1, 2] }

/-- A 12-state counter DFA over {a} accepting exactly the strings of length
at least 11. -/
def dChain : DFA :=
  { states := [0, 1, 2, 3, 4, 5, 6, 7, 8, 9, 10, 11]
    alphabet := ['a']
    trans := fun q c => if c = 'a' then (if q < 11 then some (q + 1) else some 11) else none
    start := 0
    accept := [11] }

/-- A one-state DFA over {a} accepting nothing. -/
def dOne : DFA :=
  { states := [0]
    alphabet := ['a']
    trans := fun q c => if c = 'a' ∧ q = 0 then some 0 else none
    start := 0
    accept := [] }

/-- A non-total DFA over {a} with no transitions at all, accepting exactly
the empty string under simulation. -/
def dA10 : DFA :=
  { states := [0], alphabet := ['a'], trans := fun _ _ => none, start := 0, accept := [0] }

/-- A total one-state DFA over {a} accepting every string. -/
def dB10 : DFA :=
  { states := [0], alphabet := ['a']
    trans := fun q c => if c = 'a' ∧ q = 0 then some 0 else none
    start := 0, accept := [0] }

/-- A total DFA whose accepting state 1 is unreachable from the start. -/
def dUnre : DFA :=
  { states := [0, 1]
    alphabet := ['a']
    trans := fun q c =>
      if c = 'a' then (if q = 0 then some 0 else if q = 1 then some 1 else none) else none
    start := 0
    accept := [1] }

end Auto

namespace Src4

/-- A small NFA exercising re-discovery in the subset construction:
0 -a-> 1, 0 -b-> 0, 1 -a-> 1, with 1 final. -/
def nEx : NFA :=
  { nodes :=
      [{ id := 0, symTrans := [('a', [1]), ('b', [0])], eps := [], final := false },
       { id := 1, symTrans := [('a', [1])], eps := [], final := true }]
    start := 0
    endId := 1 }

/-- The completed subset-construction run on nEx. -/
def stEx : SubsetSt :=
  (determinizeRun nEx 20).getD { queue := [], stMap := [], dStates := [], dAccept := [], dTrans := [] }

/-- A two-state DFA over {a} used to exhibit the raise of
process_input_with_trace on an out-of-alphabet symbol. -/
def dEx4 : Auto.DFA :=
  { states := [0, 1]
    alphabet := ['a']
    trans := fun q c => if c = 'a' ∧ q = 0 then some 1 else none
    start := 0
    accept := [1] }

end Src4

namespace Src2

/-- A one-state epsilon-free NFA over {a} accepting a*. -/
def mEx : NFA2 :=
  { alphabet := ['a']
    trans := fun q c => if q = 0 ∧ c = 'a' then [0] else []
    start := 0
    accept := [0] }

end Src2

namespace Src1

/-- A two-state loaded DFA over {a, b} as from a CSV row pair. -/
def dEx1 : DFA1 :=
  { stKeys := [0, 1]
    alphabet := ['a', 'b']
    trans := fun q c =>
      if q = 0 ∧ c = 'a' then some 1
      else if q = 0 ∧ c = 'b' then some 0
      else if q = 1 ∧ c = 'a' then some 1
      else none
    start := 0
    final := [1] }

end Src1

namespace Core3

/-- A placeholder automaton used only as the default of Option.getD in
concrete witnesses. -/
def dfltDFA : Auto.DFA :=
  { states := [], alphabet := [], trans := fun _ _ => none, start := 0, accept := [] }

/-- The concrete pruned rebuild of the scenario-3 automaton from its
discrete partition, used as the witness run. -/
def c7M : Auto.DFA :=
  (buildNewDfa Auto.dEx3 [[0], [1], [2]] 50).getD dfltDFA

end Core3

namespace Src4

/-- The concrete determinization of the two-state NFA for the language of
the regex ab, used in the C3 counterexample: 0 -a-> 1, 1 eps-> 2,
2 -b-> 3 with 3 final. -/
def nAB : NFA :=
  { nodes :=
      [{ id := 0, symTrans := [('a', [1])], eps := [], final := false },
       { id := 1, symTrans := [], eps := [2], final := false },
       { id := 2, symTrans := [('b', [3])], eps := [], final := false },
       { id := 3, symTrans := [], eps := [], final := true }]
    start := 0
    endId := 3 }

/-- A two-state epsilon-only NFA with no symbol transitions at all. -/
def nEps : NFA :=
  { nodes :=
      [{ id := 0, symTrans := [], eps := [1], final := false },
       { id := 1, symTrans := [], eps := [], final := true }]
    start := 0
    endId := 1 }

/-- Its determinization, which still succeeds with the placeholder
alphabet. -/
def c3E : Auto.DFA :=
  (nfaToDfa nEps 20).getD Core3.dfltDFA

/-- The concrete determinized DFA of nAB, used as the amended-claim witness. -/
def c3D : Auto.DFA :=
  (nfaToDfa nAB 20).getD Core3.dfltDFA

end Src4

namespace Src4

/-- The numbering invariant of the subset construction: the set-to-number
map is the discovery list zipped with 0, 1, 2, ..., the first discovered
set is the start closure, no set is discovered twice, and every stored set
is in canonical sorted form. -/
def SubInv (startSet : List Nat) (st : SubsetSt) : Prop :=
  st.stMap = st.dStates.zip (List.range st.dStates.length) ∧
  st.dStates.head? = some startSet ∧
  st.dStates.Nodup ∧
  ∀ S ∈ st.dStates, List.Pairwise (fun x y => x < y) S

end Src4

/-! Basic facts about block lookup and the partition shape. -/

namespace Auto

lemma contains_iff {l : List Nat} {x : Nat} : l.contains x = true ↔ x ∈ l :=
  List.elem_iff

lemma mem_headD {l : List Nat} (h : l ≠ []) : l.headD 0 ∈ l := by
  cases l with
  | nil => exact absurd rfl h
  | cons a t => simp [List.headD]

lemma blockIdx_cons_pos {b : List Nat} {rest : List (List Nat)} {q : Nat}
    (h : q ∈ b) : blockIdx (b :: rest) q = some 0 := by
  simp [blockIdx, h]

lemma blockIdx_cons_neg {b : List Nat} {rest : List (List Nat)} {q : Nat}
    (h : q ∉ b) : blockIdx (b :: rest) q = (blockIdx rest q).map (· + 1) := by
  simp [blockIdx, h]

lemma blockIdx_eq_some {P : List (List Nat)} {q i : Nat}
    (h : blockIdx P q = some i) : ∃ b, P.get? i = some b ∧ q ∈ b := by
  induction P generalizing i with
  | nil => simp [blockIdx] at h
  | cons b rest ih =>
    by_cases hb : q ∈ b
    · rw [blockIdx_cons_pos hb] at h
      obtain rfl : (0 : Nat) = i := Option.some.inj h
      exact ⟨b, rfl, hb⟩
    · rw [blockIdx_cons_neg hb, Option.map_eq_some'] at h
      obtain ⟨j, hj, hij⟩ := h
      obtain ⟨b2, hb2, hq2⟩ := ih hj
      exact ⟨b2, by simpa [← hij] using hb2, hq2⟩

lemma blockIdx_isSome_of_mem {P : List (List Nat)} {b : List Nat} {q : Nat}
    (hb : b ∈ P) (hq : q ∈ b) : (blockIdx P q).isSome = true := by
  induction P with
  | nil => cases hb
  | cons b0 rest ih =>
    by_cases h0 : q ∈ b0
    · simp [blockIdx_cons_pos h0]
    · rcases List.mem_cons.mp hb with hbb | hbb
      · exact absurd (hbb ▸ hq) h0
      · rw [blockIdx_cons_neg h0]
        have hrec := ih hbb
        cases hx : blockIdx rest q with
        | none => rw [hx] at hrec; simp at hrec
        | some j => simp [hx]

lemma blockIdx_eq_of_mem {P : List (List Nat)} {b : List Nat} {q : Nat}
    (hnd : P.flatten.Nodup) (hb : b ∈ P) (hq : q ∈ b) :
    ∃ i, blockIdx P q = some i ∧ P.get? i = some b := by
  induction P with
  | nil => cases hb
  | cons b0 rest ih =>
    have hnd2 : (b0 ++ rest.flatten).Nodup := by simpa using hnd
    rw [List.nodup_append] at hnd2
    by_cases h0 : q ∈ b0
    · have hbb : b = b0 := by
        rcases List.mem_cons.mp hb with hbb | hbb
        · exact hbb
        · exact absurd (List.mem_flatten.mpr ⟨b, hbb, hq⟩) (hnd2.2.2 h0)
      exact ⟨0, blockIdx_cons_pos h0, by simp [hbb]⟩
    · have hbb : b ∈ rest := by
        rcases List.mem_cons.mp hb with hbb | hbb
        · exact absurd (hbb ▸ hq) h0
        · exact hbb
      obtain ⟨i, hi, hgi⟩ := ih hnd2.2.1 hbb
      exact ⟨i + 1, by rw [blockIdx_cons_neg h0, hi]; rfl, by simpa using hgi⟩

lemma classIdx_eq_of_mem {P : List (List Nat)} {b : List Nat} {q : Nat}
    (hnd : P.flatten.Nodup) (hb : b ∈ P) (hq : q ∈ b) :
    blockIdx P q = some (classIdx P q) ∧ P.get? (classIdx P q) = some b := by
  obtain ⟨i, hi, hgi⟩ := blockIdx_eq_of_mem hnd hb hq
  refine ⟨by simp [classIdx, hi], ?_⟩
  simpa [classIdx, hi] using hgi

lemma blockIdx_congr_of_sameBlock {P : List (List Nat)} {p q : Nat}
    (hnd : P.flatten.Nodup) (h : SameBlock P p q) :
    blockIdx P p = blockIdx P q := by
  obtain ⟨b, hb, hp, hq⟩ := h
  obtain ⟨i, hi, hgi⟩ := blockIdx_eq_of_mem hnd hb hp
  obtain ⟨j, hj, hgj⟩ := blockIdx_eq_of_mem hnd hb hq
  induction P generalizing i j with
  | nil => cases hb
  | cons b0 rest ih =>
    by_cases h0 : p ∈ b0 <;> by_cases h1 : q ∈ b0
    · rw [blockIdx_cons_pos h0, blockIdx_cons_pos h1]
    · exfalso
      have hnd2 : (b0 ++ rest.flatten).Nodup := by simpa using hnd
      rw [List.nodup_append] at hnd2
      have hbb : b = b0 := by
        rcases List.mem_cons.mp hb with hbb | hbb
        · exact hbb
        · exact absurd (List.mem_flatten.mpr ⟨b, hbb, hp⟩) (hnd2.2.2 h0)
      exact h1 (hbb ▸ hq)
    · exfalso
      have hnd2 : (b0 ++ rest.flatten).Nodup := by simpa using hnd
      rw [List.nodup_append] at hnd2
      have hbb : b = b0 := by
        rcases List.mem_cons.mp hb with hbb | hbb
        · exact hbb
        · exact absurd (List.mem_flatten.mpr ⟨b, hbb, hq⟩) (hnd2.2.2 h1)
      exact h0 (hbb ▸ hp)
    · have hnd2 : (b0 ++ rest.flatten).Nodup := by simpa using hnd
      rw [List.nodup_append] at hnd2
      have hbb : b ∈ rest := by
        rcases List.mem_cons.mp hb with hbb | hbb
        · exact absurd (hbb ▸ hp) h0
        · exact hbb
      obtain ⟨i2, hi2, hgi2⟩ := blockIdx_eq_of_mem hnd2.2.1 hbb hp
      obtain ⟨j2, hj2, hgj2⟩ := blockIdx_eq_of_mem hnd2.2.1 hbb hq
      rw [blockIdx_cons_neg h0, blockIdx_cons_neg h1,
        ih hnd2.2.1 hbb i2 hi2 hgi2 j2 hj2 hgj2]

end Auto

namespace Auto

lemma length_le_flatten_length {P : List (List Nat)} (h : ∀ b ∈ P, b ≠ []) :
    P.length ≤ P.flatten.length := by
  induction P with
  | nil => simp
  | cons b rest ih =>
    have hb : b ≠ [] := h b (List.mem_cons_self b rest)
    have h1 : 1 ≤ b.length := by
      cases b with
      | nil => exact absurd rfl hb
      | cons x t => simp
    have := ih (fun b2 hb2 => h b2 (List.mem_cons_of_mem _ hb2))
    simp only [List.flatten_cons, List.length_cons, List.length_append]
    omega

lemma partOf_nodup_flatten {d : DFA} {P : List (List Nat)}
    (hnd : d.states.Nodup) (hP : PartOf d P) : P.flatten.Nodup :=
  hP.2.symm.nodup hnd

lemma partOf_mem_states {d : DFA} {P : List (List Nat)} {b : List Nat} {q : Nat}
    (hP : PartOf d P) (hb : b ∈ P) (hq : q ∈ b) : q ∈ d.states :=
  hP.2.mem_iff.mp (List.mem_flatten.mpr ⟨b, hb, hq⟩)

lemma partOf_cover {d : DFA} {P : List (List Nat)} {q : Nat}
    (hP : PartOf d P) (hq : q ∈ d.states) : ∃ b ∈ P, q ∈ b :=
  List.mem_flatten.mp (hP.2.mem_iff.mpr hq)

lemma partOf_length_le {d : DFA} {P : List (List Nat)} (hP : PartOf d P) :
    P.length ≤ d.states.length := by
  have h1 := length_le_flatten_length hP.1
  have h2 : P.flatten.length = d.states.length := hP.2.length_eq
  omega

lemma processFrom_eq_langFrom (d : DFA) (q : Nat) (s : List Char)
    (hs : ∀ c ∈ s, c ∈ d.alphabet) :
    processFrom d q s = .ok (langFrom d q s) := by
  induction s generalizing q with
  | nil => rfl
  | cons c rest ih =>
    have hc : c ∈ d.alphabet := hs c (List.mem_cons_self c rest)
    have hrest : ∀ x ∈ rest, x ∈ d.alphabet :=
      fun x hx => hs x (List.mem_cons_of_mem _ hx)
    cases ht : d.trans q c with
    | none => simp [processFrom, langFrom, hc, ht]
    | some t => simp [processFrom, langFrom, hc, ht, ih t hrest]

lemma nerodeEq_accept {d : DFA} {p q : Nat} (h : NerodeEq d p q) :
    d.accept.contains p = d.accept.contains q := by
  have := h [] (by intro c hc; cases hc)
  simpa [langFrom] using this

lemma nerodeEq_step {d : DFA} {p q tp tq : Nat} {a : Char}
    (h : NerodeEq d p q) (ha : a ∈ d.alphabet)
    (hp : d.trans p a = some tp) (hq : d.trans q a = some tq) :
    NerodeEq d tp tq := by
  intro s hs
  have := h (a :: s) (by
    intro c hc
    rcases List.mem_cons.mp hc with rfl | hc
    · exact ha
    · exact hs c hc)
  simpa [langFrom, hp, hq] using this

lemma nerodeEq_refl (d : DFA) (p : Nat) : NerodeEq d p p := fun _ _ => rfl

lemma nerodeEq_symm {d : DFA} {p q : Nat} (h : NerodeEq d p q) : NerodeEq d q p :=
  fun s hs => (h s hs).symm

lemma total_succ {d : DFA} {q : Nat} {a : Char}
    (hwf : WF d) (ht : Total d) (hq : q ∈ d.states) (ha : a ∈ d.alphabet) :
    d.trans q a = some (succD d q a) ∧ succD d q a ∈ d.states := by
  have h1 := ht q hq a ha
  cases he : d.trans q a with
  | none => rw [he] at h1; simp at h1
  | some t =>
    have h2 := hwf.2.2.1 q hq a ha
    rw [he] at h2
    simp only [Option.all_some] at h2
    exact ⟨by simp [succD, he], by simpa [succD, he] using contains_iff.mp h2⟩

end Auto

namespace Auto

lemma addToBuckets_notMem_keys {sig0 : List Nat} {q : Nat}
    {B : List (List Nat × List Nat)} (h : sig0 ∉ B.map Prod.fst) :
    addToBuckets sig0 q B = B ++ [(sig0, [q])] := by
  induction B with
  | nil => rfl
  | cons e rest ih =>
    have h1 : e.1 ≠ sig0 := fun he => h (by simp [← he])
    have h2 : sig0 ∉ rest.map Prod.fst := fun hm => h (by simp [hm])
    cases e with
    | mk s b =>
      simp only at h1
      simp only [addToBuckets, if_neg h1, List.cons_append]
      rw [ih h2]

lemma addToBuckets_keys_found {sig0 : List Nat} {q : Nat}
    {B : List (List Nat × List Nat)} (h : sig0 ∈ B.map Prod.fst) :
    (addToBuckets sig0 q B).map Prod.fst = B.map Prod.fst := by
  induction B with
  | nil => simp at h
  | cons e rest ih =>
    cases e with
    | mk s b =>
      by_cases hs : s = sig0
      · simp [addToBuckets, hs]
      · have h2 : sig0 ∈ rest.map Prod.fst := by
          simp only [List.map_cons] at h
          rcases List.mem_cons.mp h with h1 | h1
          · exact absurd h1.symm hs
          · exact h1
        simp [addToBuckets, hs, ih h2]

lemma addToBuckets_ne {sig0 : List Nat} {q : Nat}
    {B : List (List Nat × List Nat)} (h : ∀ e ∈ B, e.2 ≠ []) :
    ∀ e ∈ addToBuckets sig0 q B, e.2 ≠ [] := by
  induction B with
  | nil => simp [addToBuckets]
  | cons e0 rest ih =>
    cases e0 with
    | mk s b =>
      by_cases hs : s = sig0
      · intro e he
        simp only [addToBuckets, if_pos hs] at he
        rcases List.mem_cons.mp he with rfl | h1
        · simp
        · exact h e (List.mem_cons_of_mem _ h1)
      · intro e he
        simp only [addToBuckets, if_neg hs] at he
        rcases List.mem_cons.mp he with rfl | h1
        · exact h (s, b) (List.mem_cons_self _ _)
        · exact ih (fun e2 he2 => h e2 (List.mem_cons_of_mem _ he2)) e h1

lemma filter_singleton_ne {sig : Nat → List Nat} {q : Nat} {k : List Nat}
    (h : sig q ≠ k) : List.filter (fun x => decide (sig x = k)) [q] = [] := by
  simp [List.filter, h]

lemma filter_singleton_eq {sig : Nat → List Nat} {q : Nat} {k : List Nat}
    (h : sig q = k) : List.filter (fun x => decide (sig x = k)) [q] = [q] := by
  simp [List.filter, h]

lemma addToBuckets_filter_found {sig : Nat → List Nat} {pre : List Nat} {q : Nat}
    {B : List (List Nat × List Nat)}
    (hkeys : (B.map Prod.fst).Nodup)
    (hfil : ∀ e ∈ B, e.2 = pre.filter (fun x => decide (sig x = e.1)))
    (hmem : sig q ∈ B.map Prod.fst) :
    ∀ e ∈ addToBuckets (sig q) q B,
      e.2 = (pre ++ [q]).filter (fun x => decide (sig x = e.1)) := by
  induction B with
  | nil => simp at hmem
  | cons e0 rest ih =>
    cases e0 with
    | mk s b =>
      simp only [List.map_cons, List.nodup_cons] at hkeys
      by_cases hs : s = sig q
      · intro e he
        simp only [addToBuckets, if_pos hs] at he
        rcases List.mem_cons.mp he with rfl | h1
        · have hb := hfil (s, b) (List.mem_cons_self _ _)
          simp only at hb ⊢
          rw [List.filter_append, filter_singleton_eq hs.symm, ← hb]
        · have hb := hfil e (List.mem_cons_of_mem _ h1)
          have hk : sig q ≠ e.1 := by
            intro hcontra
            exact hkeys.1 (hs ▸ hcontra ▸ List.mem_map.mpr ⟨e, h1, rfl⟩)
          rw [List.filter_append, filter_singleton_ne hk, List.append_nil, ← hb]
      · intro e he
        simp only [addToBuckets, if_neg hs] at he
        have hmem2 : sig q ∈ rest.map Prod.fst := by
          simp only [List.map_cons] at hmem
          rcases List.mem_cons.mp hmem with h1 | h1
          · exact absurd h1.symm hs
          · exact h1
        rcases List.mem_cons.mp he with rfl | h1
        · have hb := hfil (s, b) (List.mem_cons_self _ _)
          simp only at hb ⊢
          have hk : sig q ≠ s := fun hcontra => hs hcontra.symm
          rw [List.filter_append, filter_singleton_ne hk, List.append_nil, ← hb]
        · exact ih hkeys.2 (fun e2 he2 => hfil e2 (List.mem_cons_of_mem _ he2)) hmem2 e h1

lemma addToBuckets_filter_fresh {sig : Nat → List Nat} {pre : List Nat} {q : Nat}
    {B : List (List Nat × List Nat)}
    (hfil : ∀ e ∈ B, e.2 = pre.filter (fun x => decide (sig x = e.1)))
    (hcomp : ∀ x ∈ pre, sig x ∈ B.map Prod.fst)
    (hmem : sig q ∉ B.map Prod.fst) :
    ∀ e ∈ addToBuckets (sig q) q B,
      e.2 = (pre ++ [q]).filter (fun x => decide (sig x = e.1)) := by
  rw [addToBuckets_notMem_keys hmem]
  intro e he
  rcases List.mem_append.mp he with h1 | h1
  · have hb := hfil e h1
    have hk : sig q ≠ e.1 := fun hcontra =>
      hmem (hcontra ▸ List.mem_map.mpr ⟨e, h1, rfl⟩)
    rw [List.filter_append, filter_singleton_ne hk, List.append_nil, ← hb]
  · simp only [List.mem_singleton] at h1
    subst h1
    have hpre : pre.filter (fun x => decide (sig x = sig q)) = [] := by
      rw [List.filter_eq_nil_iff]
      intro x hx
      simp only [decide_eq_true_eq]
      exact fun hcontra => hmem (hcontra ▸ hcomp x hx)
    simp only [List.filter_append, hpre, List.nil_append]
    rw [filter_singleton_eq rfl]

end Auto

namespace Auto

/-- The aggregated bucket-fold invariant. -/
def BucketInv (sig : Nat → List Nat) (pre : List Nat)
    (B : List (List Nat × List Nat)) : Prop :=
  (B.map Prod.fst).Nodup ∧
  (∀ e ∈ B, e.2 = pre.filter (fun x => decide (sig x = e.1))) ∧
  (∀ x ∈ pre, sig x ∈ B.map Prod.fst) ∧
  (∀ e ∈ B, e.2 ≠ [])

lemma bucketInv_step {sig : Nat → List Nat} {pre : List Nat}
    {B : List (List Nat × List Nat)} {q : Nat} (h : BucketInv sig pre B) :
    BucketInv sig (pre ++ [q]) (addToBuckets (sig q) q B) := by
  obtain ⟨hkeys, hfil, hcomp, hne⟩ := h
  by_cases hmem : sig q ∈ B.map Prod.fst
  · refine ⟨addToBuckets_keys_found hmem ▸ hkeys,
      addToBuckets_filter_found hkeys hfil hmem, ?_, addToBuckets_ne hne⟩
    intro x hx
    rw [addToBuckets_keys_found hmem]
    rcases List.mem_append.mp hx with h1 | h1
    · exact hcomp x h1
    · simp only [List.mem_singleton] at h1
      exact h1 ▸ hmem
  · refine ⟨?_, addToBuckets_filter_fresh hfil hcomp hmem, ?_, addToBuckets_ne hne⟩
    · rw [addToBuckets_notMem_keys hmem]
      simp only [List.map_append, List.map_cons, List.map_nil]
      refine List.Nodup.append hkeys (List.nodup_singleton _) ?_
      intro a ha hb
      simp only [List.mem_singleton] at hb
      exact hmem (hb ▸ ha)
    · intro x hx
      rw [addToBuckets_notMem_keys hmem]
      rcases List.mem_append.mp hx with h1 | h1
      · simp only [List.map_append, List.mem_append]
        exact Or.inl (hcomp x h1)
      · simp only [List.mem_singleton] at h1
        simp [h1]

lemma bucketsOf_inv (d : DFA) (P : List (List Nat)) (g : List Nat) :
    BucketInv (signature d P) g (bucketsOf d P g) := by
  have main : ∀ gs pre B, BucketInv (signature d P) pre B →
      BucketInv (signature d P) (pre ++ gs)
        (gs.foldl (fun acc q => addToBuckets (signature d P q) q acc) B) := by
    intro gs
    induction gs with
    | nil => intro pre B h; simpa using h
    | cons x rest ih =>
      intro pre B h
      have h2 := bucketInv_step (q := x) h
      have h3 := ih (pre ++ [x]) _ h2
      simpa using h3
  have h0 : BucketInv (signature d P) [] [] := ⟨by simp, by simp, by simp, by simp⟩
  simpa [bucketsOf] using main g [] [] h0

end Auto

namespace Auto

lemma perm_cons_append (q : Nat) (b F : List Nat) :
    List.Perm (b ++ q :: F) (q :: (b ++ F)) :=
  List.perm_middle

lemma addToBuckets_flatten_perm (sig0 : List Nat) (q : Nat)
    (B : List (List Nat × List Nat)) :
    List.Perm ((addToBuckets sig0 q B).map Prod.snd).flatten
      (q :: (B.map Prod.snd).flatten) := by
  induction B with
  | nil => simp [addToBuckets]
  | cons e0 rest ih =>
    cases e0 with
    | mk s b =>
      by_cases hs : s = sig0
      · simp only [addToBuckets, if_pos hs, List.map_cons, List.flatten_cons]
        have heq : b ++ [q] ++ (rest.map Prod.snd).flatten
            = b ++ q :: (rest.map Prod.snd).flatten := by
          simp
        rw [heq]
        exact perm_cons_append q b _
      · simp only [addToBuckets, if_neg hs, List.map_cons, List.flatten_cons]
        exact (ih.append_left b).trans (perm_cons_append q b _)

lemma bucketsOf_flatten_perm (d : DFA) (P : List (List Nat)) (g : List Nat) :
    List.Perm ((bucketsOf d P g).map Prod.snd).flatten g := by
  have main : ∀ gs B,
      List.Perm
        ((gs.foldl (fun acc q => addToBuckets (signature d P q) q acc) B).map
          Prod.snd).flatten
        ((B.map Prod.snd).flatten ++ gs) := by
    intro gs
    induction gs with
    | nil => intro B; simp
    | cons x rest ih =>
      intro B
      have h1 := ih (addToBuckets (signature d P x) x B)
      have h2 := (addToBuckets_flatten_perm (signature d P x) x B).append_right rest
      have h3 : List.Perm ((x :: (B.map Prod.snd).flatten) ++ rest)
          ((B.map Prod.snd).flatten ++ x :: rest) := by
        simpa using (perm_cons_append x (B.map Prod.snd).flatten rest).symm
      exact (h1.trans h2).trans h3
  simpa [bucketsOf] using main g []

lemma splitGroup_flatten_perm (d : DFA) (P : List (List Nat)) (g : List Nat) :
    List.Perm (splitGroup d P g).flatten g := by
  by_cases h : g.length ≤ 1
  · simp [splitGroup, h]
  · simpa [splitGroup, h] using bucketsOf_flatten_perm d P g

lemma splitGroup_ne {d : DFA} {P : List (List Nat)} {g : List Nat} (hg : g ≠ []) :
    ∀ b ∈ splitGroup d P g, b ≠ [] := by
  intro b hb
  by_cases h : g.length ≤ 1
  · simp only [splitGroup, if_pos h, List.mem_singleton] at hb
    exact hb ▸ hg
  · simp only [splitGroup, if_neg h, List.mem_map] at hb
    obtain ⟨e, he, heq⟩ := hb
    exact heq ▸ (bucketsOf_inv d P g).2.2.2 e he

lemma splitGroup_subset {d : DFA} {P : List (List Nat)} {g : List Nat} :
    ∀ b ∈ splitGroup d P g, ∀ x ∈ b, x ∈ g := by
  intro b hb x hx
  by_cases h : g.length ≤ 1
  · simp only [splitGroup, if_pos h, List.mem_singleton] at hb
    exact hb ▸ hx
  · simp only [splitGroup, if_neg h, List.mem_map] at hb
    obtain ⟨e, he, heq⟩ := hb
    have hfil := (bucketsOf_inv d P g).2.1 e he
    rw [← heq, hfil] at hx
    exact (List.mem_filter.mp hx).1

lemma splitGroup_sig {d : DFA} {P : List (List Nat)} {g : List Nat} :
    ∀ b ∈ splitGroup d P g, ∀ p ∈ b, ∀ q ∈ b,
      signature d P p = signature d P q := by
  intro b hb p hp q hq
  by_cases h : g.length ≤ 1
  · simp only [splitGroup, if_pos h, List.mem_singleton] at hb
    subst hb
    cases b with
    | nil => cases hp
    | cons x t =>
      cases t with
      | nil =>
        simp only [List.mem_singleton] at hp hq
        rw [hp, hq]
      | cons y u => simp at h
  · simp only [splitGroup, if_neg h, List.mem_map] at hb
    obtain ⟨e, he, heq⟩ := hb
    have hfil := (bucketsOf_inv d P g).2.1 e he
    rw [← heq, hfil] at hp hq
    have h1 := (List.mem_filter.mp hp).2
    have h2 := (List.mem_filter.mp hq).2
    simp only [decide_eq_true_eq] at h1 h2
    rw [h1, h2]

end Auto

namespace Auto

lemma filterMap_eq_map_of_isSome {l : List Char} {f : Char → Option Nat}
    (h : ∀ a ∈ l, (f a).isSome = true) :
    l.filterMap f = l.map (fun a => (f a).getD 0) := by
  induction l with
  | nil => rfl
  | cons x t ih =>
    have hx := h x (List.mem_cons_self x t)
    cases hfx : f x with
    | none => rw [hfx] at hx; simp at hx
    | some v =>
      simp [List.filterMap_cons, hfx, ih (fun a ha => h a (List.mem_cons_of_mem _ ha))]

lemma succD_mem_states {d : DFA} {q : Nat} {a : Char}
    (hwf : WF d) (hq : q ∈ d.states) (ha : a ∈ d.alphabet) :
    succD d q a ∈ d.states := by
  have h2 := hwf.2.2.1 q hq a ha
  cases he : d.trans q a with
  | none => simpa [succD, he] using hq
  | some t =>
    rw [he] at h2
    simp only [Option.all_some] at h2
    simpa [succD, he] using contains_iff.mp h2

lemma refineOnce_mem {d : DFA} {P : List (List Nat)} {b2 : List Nat}
    (h : b2 ∈ (refineOnce d P).1) : ∃ g ∈ P, b2 ∈ splitGroup d P g := by
  simp only [refineOnce, List.mem_flatten, List.mem_map] at h
  obtain ⟨l, ⟨g, hg, hgl⟩, hb⟩ := h
  exact ⟨g, hg, hgl ▸ hb⟩

lemma flatten_flatten_perm {P : List (List Nat)} {f : List Nat → List (List Nat)}
    (h : ∀ g ∈ P, List.Perm (f g).flatten g) :
    List.Perm ((P.map f).flatten).flatten P.flatten := by
  induction P with
  | nil => simp
  | cons g rest ih =>
    simp only [List.map_cons, List.flatten_cons, List.flatten_append]
    exact (h g (List.mem_cons_self _ _)).append
      (ih (fun g2 hg2 => h g2 (List.mem_cons_of_mem _ hg2)))

lemma refineOnce_partOf {d : DFA} {P : List (List Nat)} (hP : PartOf d P) :
    PartOf d (refineOnce d P).1 := by
  constructor
  · intro b hb
    obtain ⟨g, hg, hbg⟩ := refineOnce_mem hb
    exact splitGroup_ne (hP.1 g hg) b hbg
  · exact (flatten_flatten_perm (fun g _ => splitGroup_flatten_perm d P g)).trans hP.2

lemma refineOnce_accUniform {d : DFA} {P : List (List Nat)}
    (hu : AccUniform d P) : AccUniform d (refineOnce d P).1 := by
  intro b hb p hp q hq
  obtain ⟨g, hg, hbg⟩ := refineOnce_mem hb
  exact hu g hg p (splitGroup_subset b hbg p hp) q (splitGroup_subset b hbg q hq)

lemma blockIdx_eq_of_nerode {d : DFA} {P : List (List Nat)} {p q : Nat}
    (hnd : d.states.Nodup) (hP : PartOf d P) (hsat : SatBlocks d P)
    (hp : p ∈ d.states) (hq : q ∈ d.states) (h : NerodeEq d p q) :
    blockIdx P p = blockIdx P q := by
  obtain ⟨b, hb, hpb⟩ := partOf_cover hP hp
  have hqb : q ∈ b := hsat b hb p hpb q hq h
  exact blockIdx_congr_of_sameBlock (partOf_nodup_flatten hnd hP) ⟨b, hb, hpb, hqb⟩

lemma signature_congr_of_nerode {d : DFA} {P : List (List Nat)} {p q : Nat}
    (hwf : WF d) (ht : Total d) (hP : PartOf d P) (hsat : SatBlocks d P)
    (hp : p ∈ d.states) (hq : q ∈ d.states) (h : NerodeEq d p q) :
    signature d P p = signature d P q := by
  apply List.filterMap_congr
  intro a ha
  obtain ⟨htp, hmp⟩ := total_succ hwf ht hp ha
  obtain ⟨htq, hmq⟩ := total_succ hwf ht hq ha
  exact blockIdx_eq_of_nerode hwf.1 hP hsat hmp hmq (nerodeEq_step h ha htp htq)

lemma refineOnce_satBlocks {d : DFA} {P : List (List Nat)}
    (hwf : WF d) (ht : Total d) (hP : PartOf d P) (hsat : SatBlocks d P) :
    SatBlocks d (refineOnce d P).1 := by
  intro b hb p hp q hqs hpq
  obtain ⟨g, hg, hbg⟩ := refineOnce_mem hb
  have hpg : p ∈ g := splitGroup_subset b hbg p hp
  have hqg : q ∈ g := hsat g hg p hpg q hqs hpq
  by_cases hlen : g.length ≤ 1
  · simp only [splitGroup, if_pos hlen, List.mem_singleton] at hbg
    exact hbg ▸ hqg
  · simp only [splitGroup, if_neg hlen, List.mem_map] at hbg
    obtain ⟨e, he, heq⟩ := hbg
    have hfil := (bucketsOf_inv d P g).2.1 e he
    have hps : p ∈ d.states := partOf_mem_states hP hg hpg
    have hsig : signature d P q = e.1 := by
      have hsp : signature d P p = e.1 := by
        rw [← heq, hfil] at hp
        have := (List.mem_filter.mp hp).2
        simpa using this
      rw [← hsp]
      exact (signature_congr_of_nerode hwf ht hP hsat hps hqs hpq).symm
    rw [← heq, hfil]
    exact List.mem_filter.mpr ⟨hqg, by simpa using hsig⟩

lemma bucketsOf_ne_nil {d : DFA} {P : List (List Nat)} {g : List Nat}
    (hg : g ≠ []) : bucketsOf d P g ≠ [] := by
  cases g with
  | nil => exact absurd rfl hg
  | cons x t =>
    intro hcontra
    have := (bucketsOf_inv d P (x :: t)).2.2.1 x (List.mem_cons_self x t)
    rw [hcontra] at this
    simp at this

lemma refineOnce_snd_false_sig {d : DFA} {P : List (List Nat)}
    (h : (refineOnce d P).2 = false) :
    ∀ g ∈ P, ∀ p ∈ g, ∀ q ∈ g, signature d P p = signature d P q := by
  intro g hg p hp q hq
  have hflag := List.any_eq_false.mp h g hg
  by_cases hlen : g.length ≤ 1
  · cases g with
    | nil => cases hp
    | cons x t =>
      cases t with
      | nil =>
        simp only [List.mem_singleton] at hp hq
        rw [hp, hq]
      | cons y u => simp at hlen
  · by_cases hbl : 1 < (bucketsOf d P g).length
    · exact absurd (by simp [hlen, hbl]) hflag
    · have hgne : g ≠ [] := by
        intro hcontra
        rw [hcontra] at hlen
        simp at hlen
      have hone : ∃ e, bucketsOf d P g = [e] := by
        cases hB : bucketsOf d P g with
        | nil => exact absurd hB (bucketsOf_ne_nil hgne)
        | cons e rest =>
          cases rest with
          | nil => exact ⟨e, rfl⟩
          | cons e2 rest2 => rw [hB] at hbl; simp at hbl
      obtain ⟨e, he⟩ := hone
      have hcomp := (bucketsOf_inv d P g).2.2.1
      have h1 := hcomp p hp
      have h2 := hcomp q hq
      rw [he] at h1 h2
      simp only [List.map_cons, List.map_nil, List.mem_singleton] at h1 h2
      rw [h1, h2]

lemma flatten_map_singleton (P : List (List Nat)) :
    (P.map (fun g => [g])).flatten = P := by
  induction P with
  | nil => rfl
  | cons g rest ih => simp [ih]

lemma refineOnce_snd_false_fix {d : DFA} {P : List (List Nat)}
    (h : (refineOnce d P).2 = false) (hne : ∀ b ∈ P, b ≠ []) :
    (refineOnce d P).1 = P := by
  have hsplit : ∀ g ∈ P, splitGroup d P g = [g] := by
    intro g hg
    by_cases hlen : g.length ≤ 1
    · simp [splitGroup, hlen]
    · have hgne := hne g hg
      have hflag := List.any_eq_false.mp h g hg
      by_cases hbl : 1 < (bucketsOf d P g).length
      · exact absurd (by simp [hlen, hbl]) hflag
      · have hone : ∃ e, bucketsOf d P g = [e] := by
          cases hB : bucketsOf d P g with
          | nil => exact absurd hB (bucketsOf_ne_nil hgne)
          | cons e rest =>
            cases rest with
            | nil => exact ⟨e, rfl⟩
            | cons e2 rest2 => rw [hB] at hbl; simp at hbl
        obtain ⟨e, he⟩ := hone
        have hfil := (bucketsOf_inv d P g).2.1 e (by simp [he])
        have hall : ∀ x ∈ g, signature d P x = e.1 := by
          intro x hx
          have := (bucketsOf_inv d P g).2.2.1 x hx
          rw [he] at this
          simpa using this
        have hfe : e.2 = g := by
          rw [hfil, List.filter_eq_self]
          intro x hx
          simpa using hall x hx
        simp [splitGroup, hlen, he, hfe]
  have : P.map (splitGroup d P) = P.map (fun g => [g]) :=
    List.map_congr_left hsplit
  simp only [refineOnce, this, flatten_map_singleton]

lemma sum_length_ge {P : List (List Nat)} {f : List Nat → List (List Nat)}
    (h : ∀ g ∈ P, 1 ≤ (f g).length) :
    P.length ≤ ((P.map f).flatten).length := by
  induction P with
  | nil => simp
  | cons g rest ih =>
    have h1 := h g (List.mem_cons_self _ _)
    have h2 := ih (fun g2 hg2 => h g2 (List.mem_cons_of_mem _ hg2))
    simp only [List.map_cons, List.flatten_cons, List.length_cons, List.length_append]
    omega

lemma splitGroup_length_pos {d : DFA} {P : List (List Nat)} {g : List Nat}
    (hg : g ≠ []) : 1 ≤ (splitGroup d P g).length := by
  by_cases hlen : g.length ≤ 1
  · simp [splitGroup, hlen]
  · simp only [splitGroup, if_neg hlen, List.length_map]
    cases hB : bucketsOf d P g with
    | nil => exact absurd hB (bucketsOf_ne_nil hg)
    | cons e rest => simp

lemma flatten_length_lt {L : List (List Nat)} {f : List Nat → List (List Nat)}
    (h1 : ∀ g ∈ L, 1 ≤ (f g).length) (h2 : ∃ g ∈ L, 2 ≤ (f g).length) :
    L.length < ((L.map f).flatten).length := by
  induction L with
  | nil => obtain ⟨g, hg, _⟩ := h2; cases hg
  | cons g rest ih =>
    simp only [List.map_cons, List.flatten_cons, List.length_cons, List.length_append]
    obtain ⟨g0, hg0, hk⟩ := h2
    rcases List.mem_cons.mp hg0 with rfl | hg0r
    · have hrest : rest.length ≤ ((rest.map f).flatten).length :=
        sum_length_ge (fun g2 hg2 => h1 g2 (List.mem_cons_of_mem _ hg2))
      omega
    · have hg1 : 1 ≤ (f g).length := h1 g (List.mem_cons_self _ _)
      have := ih (fun g2 hg2 => h1 g2 (List.mem_cons_of_mem _ hg2)) ⟨g0, hg0r, hk⟩
      omega

lemma refineOnce_snd_true_length {d : DFA} {P : List (List Nat)}
    (h : (refineOnce d P).2 = true) (hne : ∀ b ∈ P, b ≠ []) :
    P.length < (refineOnce d P).1.length := by
  obtain ⟨g0, hg0, hflag⟩ := List.any_eq_true.mp h
  simp only [Bool.and_eq_true, Bool.not_eq_true', decide_eq_false_iff_not,
    decide_eq_true_eq] at hflag
  have hkey : 2 ≤ (splitGroup d P g0).length := by
    simp only [splitGroup, if_neg hflag.1, List.length_map]
    omega
  exact flatten_length_lt (fun g hg => splitGroup_length_pos (hne g hg)) ⟨g0, hg0, hkey⟩

end Auto

namespace Auto

lemma sig_const_stable {d : DFA} {P : List (List Nat)}
    (hwf : WF d) (hP : PartOf d P)
    (hsig : ∀ g ∈ P, ∀ p ∈ g, ∀ q ∈ g, signature d P p = signature d P q) :
    Stable d P := by
  intro b hb p hp q hq a ha
  have hps : p ∈ d.states := partOf_mem_states hP hb hp
  have hqs : q ∈ d.states := partOf_mem_states hP hb hq
  have hsome : ∀ x ∈ d.states, ∀ a2 ∈ d.alphabet,
      (blockIdx P (succD d x a2)).isSome = true := by
    intro x hx a2 ha2
    obtain ⟨b2, hb2, hxb2⟩ := partOf_cover hP (succD_mem_states hwf hx ha2)
    exact blockIdx_isSome_of_mem hb2 hxb2
  have heq := hsig b hb p hp q hq
  rw [signature, signature,
    filterMap_eq_map_of_isSome (fun a2 ha2 => hsome p hps a2 ha2),
    filterMap_eq_map_of_isSome (fun a2 ha2 => hsome q hqs a2 ha2)] at heq
  have hpt := List.map_inj_left.mp heq a ha
  have h1 := hsome p hps a ha
  have h2 := hsome q hqs a ha
  cases hc1 : blockIdx P (succD d p a) with
  | none => rw [hc1] at h1; simp at h1
  | some i =>
    cases hc2 : blockIdx P (succD d q a) with
    | none => rw [hc2] at h2; simp at h2
    | some j =>
      rw [hc1, hc2] at hpt
      simpa using hpt

lemma flatten_filter_nonEmpty (L : List (List Nat)) :
    (L.filter (fun b => !b.isEmpty)).flatten = L.flatten := by
  induction L with
  | nil => rfl
  | cons b rest ih =>
    cases b with
    | nil => simpa using ih
    | cons x t => simpa using ih

lemma initPartition_partOf {d : DFA} (hwf : WF d) : PartOf d (initPartition d) := by
  constructor
  · intro b hb
    simp only [initPartition, List.mem_filter] at hb
    intro hcontra
    rw [hcontra] at hb
    simp at hb
  · rw [initPartition, flatten_filter_nonEmpty]
    simp only [List.flatten_cons, List.flatten_nil, List.append_nil]
    have := List.filter_append_perm (fun q => d.accept.contains q) d.states
    simpa using this

lemma initPartition_accUniform (d : DFA) : AccUniform d (initPartition d) := by
  intro b hb p hp q hq
  simp only [initPartition, List.mem_filter, List.mem_cons, List.mem_singleton] at hb
  rcases hb.1 with h1 | h1 | h1
  · rw [h1] at hp hq
    have := (List.mem_filter.mp hp).2
    have h2 := (List.mem_filter.mp hq).2
    rw [this, h2]
  · rw [h1] at hp hq
    have := (List.mem_filter.mp hp).2
    have h2 := (List.mem_filter.mp hq).2
    simp only [Bool.not_eq_true'] at this h2
    rw [this, h2]
  · cases h1

lemma initPartition_satBlocks (d : DFA) : SatBlocks d (initPartition d) := by
  intro b hb p hp q hqs hpq
  have hacc := nerodeEq_accept hpq
  simp only [initPartition, List.mem_filter, List.mem_cons, List.mem_singleton] at hb
  rcases hb.1 with h1 | h1 | h1
  · rw [h1] at hp ⊢
    have := (List.mem_filter.mp hp).2
    exact List.mem_filter.mpr ⟨hqs, hacc ▸ this⟩
  · rw [h1] at hp ⊢
    have := (List.mem_filter.mp hp).2
    exact List.mem_filter.mpr ⟨hqs, by rw [← hacc]; exact this⟩
  · cases h1

lemma refineLoop_good {d : DFA} (hwf : WF d) (ht : Total d) :
    ∀ fuel P, PartOf d P → AccUniform d P → SatBlocks d P →
      d.states.length < fuel + P.length →
      GoodFinal d (refineLoop d fuel P) := by
  intro fuel
  induction fuel with
  | zero =>
    intro P hP _ _ hm
    exact absurd (partOf_length_le hP) (by omega)
  | succ fuel ih =>
    intro P hP hu hsat hm
    by_cases hr : (refineOnce d P).2
    · have hstep : refineLoop d (fuel + 1) P = refineLoop d fuel (refineOnce d P).1 := by
        simp [refineLoop, hr]
      rw [hstep]
      have hlen := refineOnce_snd_true_length hr hP.1
      exact ih (refineOnce d P).1 (refineOnce_partOf hP) (refineOnce_accUniform hu)
        (refineOnce_satBlocks hwf ht hP hsat) (by omega)
    · have hr2 : (refineOnce d P).2 = false := by simpa using hr
      have hstep : refineLoop d (fuel + 1) P = (refineOnce d P).1 := by
        simp [refineLoop, hr2]
      have hfix := refineOnce_snd_false_fix hr2 hP.1
      rw [hstep, hfix]
      exact ⟨hP, hu, hsat, sig_const_stable hwf hP (refineOnce_snd_false_sig hr2)⟩

/-- The table-filling refinement loop, run with its proven-sufficient fuel,
delivers a stable saturated partition of the states. -/
lemma table_final_good {d : DFA} (hwf : WF d) (ht : Total d) :
    GoodFinal d (refineLoop d (d.states.length + 1) (initPartition d)) := by
  apply refineLoop_good hwf ht
  · exact initPartition_partOf hwf
  · exact initPartition_accUniform d
  · exact initPartition_satBlocks d
  · have := partOf_length_le (initPartition_partOf (d := d) hwf)
    by_cases hlen : (initPartition d).length = 0
    · -- no blocks means no states
      have hP := initPartition_partOf (d := d) hwf
      have : d.states.length = 0 := by
        have h2 := hP.2.length_eq
        cases hE : initPartition d with
        | nil => rw [hE] at h2; simpa using h2.symm
        | cons b rest => rw [hE] at hlen; simp at hlen
      omega
    · omega

end Auto

namespace Auto

lemma get?_lt_length {P : List (List Nat)} {i : Nat} {b : List Nat}
    (h : P.get? i = some b) : i < P.length := by
  by_contra hcontra
  rw [List.get?_eq_none.mpr (by omega)] at h
  cases h

lemma exists_get?_of_lt {P : List (List Nat)} {i : Nat} (h : i < P.length) :
    ∃ b, P.get? i = some b := by
  cases hE : P.get? i with
  | none => exact absurd (List.get?_eq_none.mp hE) (by omega)
  | some b => exact ⟨b, rfl⟩

lemma quotTrans_some_block {d : DFA} {P : List (List Nat)} {i : Nat}
    {a : Char} {b : List Nat} (ha : a ∈ d.alphabet) (hgi : P.get? i = some b) :
    quotTrans d P i a =
      (match d.trans (b.headD 0) a with
        | some t => blockIdx P t
        | none => none) := by
  rw [quotTrans, if_pos ha, hgi]

lemma buildQuotient_accept_contains {d : DFA} {P : List (List Nat)} {i : Nat}
    {b : List Nat} (hq : P.get? i = some b) :
    (buildQuotient d P).accept.contains i = b.any (fun q => d.accept.contains q) := by
  have hlt : i < P.length := get?_lt_length hq
  by_cases hany : b.any (fun q => d.accept.contains q) = true
  · rw [hany]
    apply contains_iff.mpr
    simp only [buildQuotient, List.mem_filter, List.mem_range]
    exact ⟨hlt, by rw [hq]; simpa using hany⟩
  · have hany2 : b.any (fun q => d.accept.contains q) = false := by
      simpa using hany
    rw [hany2]
    rw [← Bool.not_eq_true]
    intro hcontra
    have := contains_iff.mp hcontra
    simp only [buildQuotient, List.mem_filter, List.mem_range] at this
    rw [hq] at this
    simp only [Option.getD_some] at this
    exact hany this.2

lemma quot_lang {d : DFA} {P : List (List Nat)}
    (hwf : WF d) (ht : Total d) (hP : PartOf d P)
    (hu : AccUniform d P) (hs : Stable d P) :
    ∀ s : List Char, (∀ c ∈ s, c ∈ d.alphabet) → ∀ q ∈ d.states,
      langFrom (buildQuotient d P) (classIdx P q) s = langFrom d q s := by
  intro s
  induction s with
  | nil =>
    intro _ q hq
    obtain ⟨b, hb, hqb⟩ := partOf_cover hP hq
    obtain ⟨hbi, hgi⟩ := classIdx_eq_of_mem (partOf_nodup_flatten hwf.1 hP) hb hqb
    show (buildQuotient d P).accept.contains (classIdx P q) = d.accept.contains q
    rw [buildQuotient_accept_contains hgi]
    by_cases hacc : d.accept.contains q = true
    · rw [hacc]
      exact List.any_eq_true.mpr ⟨q, hqb, hacc⟩
    · have hacc2 : d.accept.contains q = false := by simpa using hacc
      rw [hacc2]
      apply List.any_eq_false.mpr
      intro x hxb
      rw [hu b hb x hxb q hqb, hacc2]
      simp
  | cons c s ih =>
    intro hcs q hq
    have hc : c ∈ d.alphabet := hcs c (List.mem_cons_self _ _)
    have hrest : ∀ x ∈ s, x ∈ d.alphabet := fun x hx => hcs x (List.mem_cons_of_mem _ hx)
    obtain ⟨b, hb, hqb⟩ := partOf_cover hP hq
    obtain ⟨hbi, hgi⟩ := classIdx_eq_of_mem (partOf_nodup_flatten hwf.1 hP) hb hqb
    have hbne : b ≠ [] := hP.1 b hb
    have hrepb : b.headD 0 ∈ b := mem_headD hbne
    have hreps : b.headD 0 ∈ d.states := partOf_mem_states hP hb hrepb
    obtain ⟨htr, hts⟩ := total_succ hwf ht hreps hc
    obtain ⟨htq, htqs⟩ := total_succ hwf ht hq hc
    have hstab := hs b hb (b.headD 0) hrepb q hqb c hc
    obtain ⟨b2, hb2, htqb2⟩ := partOf_cover hP htqs
    obtain ⟨hbi2, hgi2⟩ :=
      classIdx_eq_of_mem (partOf_nodup_flatten hwf.1 hP) hb2 htqb2
    have htrans : (buildQuotient d P).trans (classIdx P q) c
        = some (classIdx P (succD d q c)) := by
      show quotTrans d P (classIdx P q) c = _
      rw [quotTrans, if_pos hc, hgi]
      simp only [htr, hstab, hbi2]
    show langFrom (buildQuotient d P) (classIdx P q) (c :: s) = langFrom d q (c :: s)
    rw [langFrom, htrans, langFrom, htq]
    exact ih hrest (succD d q c) htqs

lemma buildQuotient_wf {d : DFA} {P : List (List Nat)}
    (hwf : WF d) (hP : PartOf d P) : WF (buildQuotient d P) := by
  refine ⟨by simpa [buildQuotient] using List.nodup_range _, ?_, ?_, ?_⟩
  · obtain ⟨b, hb, hqb⟩ := partOf_cover hP hwf.2.1
    obtain ⟨hbi, hgi⟩ := classIdx_eq_of_mem (partOf_nodup_flatten hwf.1 hP) hb hqb
    simpa [buildQuotient, List.mem_range] using get?_lt_length hgi
  · intro i _ a _
    cases hE : (buildQuotient d P).trans i a with
    | none => simp
    | some j =>
      simp only [Option.all_some]
      apply contains_iff.mpr
      simp only [buildQuotient, List.mem_range]
      replace hE : quotTrans d P i a = some j := hE
      by_cases ha2 : a ∈ d.alphabet
      · cases hgi : P.get? i with
        | none => rw [quotTrans, if_pos ha2, hgi] at hE; cases hE
        | some b =>
          rw [quotTrans_some_block ha2 hgi] at hE
          cases htr : d.trans (b.headD 0) a with
          | none => rw [htr] at hE; cases hE
          | some t =>
            rw [htr] at hE
            obtain ⟨b2, hb2, _⟩ := blockIdx_eq_some hE
            exact get?_lt_length hb2
      · rw [quotTrans, if_neg ha2] at hE; cases hE
  · intro q hq
    simp only [buildQuotient, List.mem_filter] at hq
    simpa [buildQuotient] using hq.1

lemma buildQuotient_total {d : DFA} {P : List (List Nat)}
    (hwf : WF d) (ht : Total d) (hP : PartOf d P) :
    Total (buildQuotient d P) := by
  intro i hi a ha
  have hi2 : i < P.length := by
    simpa [buildQuotient, List.mem_range] using hi
  obtain ⟨b, hgi⟩ := exists_get?_of_lt hi2
  have hb : b ∈ P := List.get?_mem hgi
  have hbne : b ≠ [] := hP.1 b hb
  have hreps : b.headD 0 ∈ d.states := partOf_mem_states hP hb (mem_headD hbne)
  have ha2 : a ∈ d.alphabet := by simpa [buildQuotient] using ha
  obtain ⟨htr, hts⟩ := total_succ hwf ht hreps ha2
  obtain ⟨b2, hb2, htb2⟩ := partOf_cover hP hts
  have hsome := blockIdx_isSome_of_mem hb2 htb2
  show (quotTrans d P i a).isSome = true
  rw [quotTrans_some_block ha2 hgi, htr]
  exact hsome

/-- Language preservation of the shared rebuild step for any stable,
accept-uniform partition of the states. -/
lemma buildQuotient_processInput {d : DFA} {P : List (List Nat)}
    (hwf : WF d) (ht : Total d) (hg : GoodFinal d P)
    (s : List Char) (hs : ∀ c ∈ s, c ∈ d.alphabet) :
    processInput (buildQuotient d P) s = processInput d s := by
  obtain ⟨hP, hu, _, hst⟩ := hg
  have hs2 : ∀ c ∈ s, c ∈ (buildQuotient d P).alphabet := by
    simpa [buildQuotient] using hs
  rw [processInput, processInput,
    processFrom_eq_langFrom (buildQuotient d P) _ s hs2,
    processFrom_eq_langFrom d _ s hs]
  have hq := quot_lang hwf ht hP hu hst s hs d.start hwf.2.1
  show Except.ok (langFrom (buildQuotient d P) (classIdx P d.start) s)
      = Except.ok (langFrom d d.start s)
  rw [hq]

end Auto

namespace Auto

lemma ne_nil_of_isEmpty_false {l : List Nat} (h : l.isEmpty = false) : l ≠ [] := by
  cases l with
  | nil => simp at h
  | cons x t => simp

lemma hopSplit_keep {X Y : List Nat} {Ps W : List (List Nat)}
    (hk : ((Y.filter (fun q => X.contains q)).isEmpty
      || (Y.filter (fun q => !X.contains q)).isEmpty) = true) :
    hopSplit X (Y :: Ps) W = (Y :: (hopSplit X Ps W).1, (hopSplit X Ps W).2) := by
  rw [hopSplit, if_pos hk]

lemma hopSplit_split {X Y : List Nat} {Ps W : List (List Nat)}
    (hk : ((Y.filter (fun q => X.contains q)).isEmpty
      || (Y.filter (fun q => !X.contains q)).isEmpty) = false) :
    hopSplit X (Y :: Ps) W =
      (Y.filter (fun q => X.contains q) :: Y.filter (fun q => !X.contains q) ::
        (hopSplit X Ps (hopNewW X Y W)).1, (hopSplit X Ps (hopNewW X Y W)).2) := by
  rw [hopSplit, if_neg (by rw [hk]; exact Bool.false_ne_true)]

lemma hopNewW_length {X Y : List Nat} {W : List (List Nat)} :
    (hopNewW X Y W).length = W.length + 1 := by
  rw [hopNewW]
  by_cases hc : W.contains Y
  · have hm : Y ∈ W := List.elem_iff.mp hc
    have h1 : 0 < W.length := List.length_pos.mpr (List.ne_nil_of_mem hm)
    have h2 := List.length_erase_of_mem hm
    simp only [if_pos hc, List.length_append]
    simp only [h2, List.length_cons, List.length_nil]
    omega
  · by_cases h2 : (Y.filter (fun q => X.contains q)).length
        ≤ (Y.filter (fun q => !X.contains q)).length
    · rw [if_neg hc, if_pos h2]
      simp
    · rw [if_neg hc, if_neg h2]
      simp

lemma hopSplit_length (X : List Nat) :
    ∀ (P W : List (List Nat)),
      (hopSplit X P W).1.length + W.length = P.length + (hopSplit X P W).2.length := by
  intro P
  induction P with
  | nil => intro W; simp [hopSplit]
  | cons Y Ps ih =>
    intro W
    by_cases hk : ((Y.filter (fun q => X.contains q)).isEmpty
        || (Y.filter (fun q => !X.contains q)).isEmpty) = true
    · rw [hopSplit_keep hk]
      have := ih W
      simp only [List.length_cons]
      omega
    · rw [hopSplit_split (by simpa using hk)]
      have := ih (hopNewW X Y W)
      have hW2 := hopNewW_length (X := X) (Y := Y) (W := W)
      simp only [List.length_cons]
      omega

lemma hopSplit_flatten_perm (X : List Nat) :
    ∀ (P W : List (List Nat)),
      List.Perm (hopSplit X P W).1.flatten P.flatten := by
  intro P
  induction P with
  | nil => intro W; simp [hopSplit]
  | cons Y Ps ih =>
    intro W
    by_cases hk : ((Y.filter (fun q => X.contains q)).isEmpty
        || (Y.filter (fun q => !X.contains q)).isEmpty) = true
    · rw [hopSplit_keep hk]
      simpa using (ih W).append_left Y
    · rw [hopSplit_split (by simpa using hk)]
      simp only [List.flatten_cons]
      have h1 : List.Perm
          (Y.filter (fun q => X.contains q) ++ Y.filter (fun q => !X.contains q)) Y :=
        List.filter_append_perm _ Y
      have h2 := ih (hopNewW X Y W)
      rw [← List.append_assoc]
      exact h1.append h2

lemma hopSplit_ne (X : List Nat) :
    ∀ (P W : List (List Nat)), (∀ b ∈ P, b ≠ []) →
      ∀ b ∈ (hopSplit X P W).1, b ≠ [] := by
  intro P
  induction P with
  | nil => intro W _ b hb; rw [hopSplit] at hb; cases hb
  | cons Y Ps ih =>
    intro W hne b hb
    by_cases hk : ((Y.filter (fun q => X.contains q)).isEmpty
        || (Y.filter (fun q => !X.contains q)).isEmpty) = true
    · rw [hopSplit_keep hk] at hb
      rcases List.mem_cons.mp hb with rfl | hb2
      · exact hne b (List.mem_cons_self _ _)
      · exact ih W (fun x hx => hne x (List.mem_cons_of_mem _ hx)) b hb2
    · rw [hopSplit_split (by simpa using hk)] at hb
      have hk2 : ((Y.filter (fun q => X.contains q)).isEmpty
          || (Y.filter (fun q => !X.contains q)).isEmpty) = false := by simpa using hk
      have hkA : (Y.filter (fun q => X.contains q)).isEmpty = false := by
        cases hE : (Y.filter (fun q => X.contains q)).isEmpty
        · rfl
        · rw [hE] at hk2; simp at hk2
      have hkB : (Y.filter (fun q => !X.contains q)).isEmpty = false := by
        cases hE : (Y.filter (fun q => !X.contains q)).isEmpty
        · rfl
        · rw [hE] at hk2; simp at hk2
      rcases List.mem_cons.mp hb with rfl | hb2
      · exact ne_nil_of_isEmpty_false hkA
      · rcases List.mem_cons.mp hb2 with rfl | hb3
        · exact ne_nil_of_isEmpty_false hkB
        · exact ih (hopNewW X Y W) (fun x hx => hne x (List.mem_cons_of_mem _ hx)) b hb3

lemma hopSplit_refines (X : List Nat) :
    ∀ (P W : List (List Nat)), Refines (hopSplit X P W).1 P := by
  intro P
  induction P with
  | nil => intro W b hb; rw [hopSplit] at hb; cases hb
  | cons Y Ps ih =>
    intro W b hb
    by_cases hk : ((Y.filter (fun q => X.contains q)).isEmpty
        || (Y.filter (fun q => !X.contains q)).isEmpty) = true
    · rw [hopSplit_keep hk] at hb
      rcases List.mem_cons.mp hb with rfl | hb2
      · exact ⟨b, List.mem_cons_self _ _, fun x hx => hx⟩
      · obtain ⟨b0, hb0, hsub⟩ := ih W b hb2
        exact ⟨b0, List.mem_cons_of_mem _ hb0, hsub⟩
    · rw [hopSplit_split (by simpa using hk)] at hb
      rcases List.mem_cons.mp hb with rfl | hb2
      · exact ⟨Y, List.mem_cons_self _ _, fun x hx => (List.mem_filter.mp hx).1⟩
      · rcases List.mem_cons.mp hb2 with rfl | hb3
        · exact ⟨Y, List.mem_cons_self _ _, fun x hx => (List.mem_filter.mp hx).1⟩
        · obtain ⟨b0, hb0, hsub⟩ := ih (hopNewW X Y W) b hb3
          exact ⟨b0, List.mem_cons_of_mem _ hb0, hsub⟩

lemma hopSplit_allOrNothing (X : List Nat) :
    ∀ (P W : List (List Nat)), AllOrNothing (hopSplit X P W).1 X := by
  intro P
  induction P with
  | nil => intro W b hb; rw [hopSplit] at hb; cases hb
  | cons Y Ps ih =>
    intro W b hb
    by_cases hk : ((Y.filter (fun q => X.contains q)).isEmpty
        || (Y.filter (fun q => !X.contains q)).isEmpty) = true
    · rw [hopSplit_keep hk] at hb
      rcases List.mem_cons.mp hb with rfl | hb2
      · rcases Bool.or_eq_true_iff.mp hk with he | he
        · right
          intro x hx hmem
          have : x ∈ b.filter (fun q => X.contains q) :=
            List.mem_filter.mpr ⟨hx, contains_iff.mpr hmem⟩
          rw [List.isEmpty_iff.mp he] at this
          cases this
        · left
          intro x hx
          by_contra hmem
          have : x ∈ b.filter (fun q => !X.contains q) :=
            List.mem_filter.mpr ⟨hx, by simpa using fun hcontra => hmem (contains_iff.mp hcontra)⟩
          rw [List.isEmpty_iff.mp he] at this
          cases this
      · exact ih W b hb2
    · rw [hopSplit_split (by simpa using hk)] at hb
      rcases List.mem_cons.mp hb with rfl | hb2
      · left
        intro x hx
        exact contains_iff.mp (List.mem_filter.mp hx).2
      · rcases List.mem_cons.mp hb2 with rfl | hb3
        · right
          intro x hx
          have := (List.mem_filter.mp hx).2
          simp only [Bool.not_eq_true'] at this
          intro hmem
          rw [contains_iff.mpr hmem] at this
          cases this
        · exact ih (hopNewW X Y W) b hb3

end Auto

namespace Auto

lemma sep_halves_of_sep_whole {X Y : List Nat} {t1 t2 : Nat} (h : Sep Y t1 t2) :
    Sep (Y.filter (fun q => X.contains q)) t1 t2 ∨
      Sep (Y.filter (fun q => !X.contains q)) t1 t2 := by
  rcases h with ⟨hin, hout⟩ | ⟨hin, hout⟩
  · by_cases hX : X.contains t1 = true
    · exact Or.inl (Or.inl ⟨List.mem_filter.mpr ⟨hin, hX⟩,
        fun hc => hout (List.mem_filter.mp hc).1⟩)
    · exact Or.inr (Or.inl ⟨List.mem_filter.mpr ⟨hin, by simpa using hX⟩,
        fun hc => hout (List.mem_filter.mp hc).1⟩)
  · by_cases hX : X.contains t2 = true
    · exact Or.inl (Or.inr ⟨List.mem_filter.mpr ⟨hin, hX⟩,
        fun hc => hout (List.mem_filter.mp hc).1⟩)
    · exact Or.inr (Or.inr ⟨List.mem_filter.mpr ⟨hin, by simpa using hX⟩,
        fun hc => hout (List.mem_filter.mp hc).1⟩)

lemma exists_sep_hopNewW {X Y : List Nat} {W : List (List Nat)} {t1 t2 : Nat}
    (h1 : Sep (Y.filter (fun q => X.contains q)) t1 t2)
    (h2 : Sep (Y.filter (fun q => !X.contains q)) t1 t2) :
    ∃ S ∈ hopNewW X Y W, Sep S t1 t2 := by
  rw [hopNewW]
  by_cases hc : W.contains Y = true
  · rw [if_pos hc]
    exact ⟨Y.filter (fun q => X.contains q),
      List.mem_append_right _ (List.mem_cons_self _ _), h1⟩
  · rw [if_neg (by simpa using hc)]
    by_cases hl : (Y.filter (fun q => X.contains q)).length
        ≤ (Y.filter (fun q => !X.contains q)).length
    · rw [if_pos hl]
      exact ⟨Y.filter (fun q => X.contains q),
        List.mem_append_right _ (List.mem_singleton.mpr rfl), h1⟩
    · rw [if_neg hl]
      exact ⟨Y.filter (fun q => !X.contains q),
        List.mem_append_right _ (List.mem_singleton.mpr rfl), h2⟩

lemma sep_carry_hopNewW {X Y : List Nat} {W : List (List Nat)} {t1 t2 : Nat}
    (h : ∃ S ∈ W, Sep S t1 t2) : ∃ S ∈ hopNewW X Y W, Sep S t1 t2 := by
  obtain ⟨S, hS, hsep⟩ := h
  rw [hopNewW]
  by_cases hc : W.contains Y = true
  · rw [if_pos hc]
    by_cases hSY : S = Y
    · subst hSY
      rcases sep_halves_of_sep_whole (X := X) hsep with hh | hh
      · exact ⟨S.filter (fun q => X.contains q),
          List.mem_append_right _ (List.mem_cons_self _ _), hh⟩
      · exact ⟨S.filter (fun q => !X.contains q),
          List.mem_append_right _ (List.mem_cons_of_mem _ (List.mem_singleton.mpr rfl)), hh⟩
    · exact ⟨S, List.mem_append_left _ ((List.mem_erase_of_ne hSY).mpr hS), hsep⟩
  · rw [if_neg (by simpa using hc)]
    by_cases hl : (Y.filter (fun q => X.contains q)).length
        ≤ (Y.filter (fun q => !X.contains q)).length
    · rw [if_pos hl]
      exact ⟨S, List.mem_append_left _ hS, hsep⟩
    · rw [if_neg hl]
      exact ⟨S, List.mem_append_left _ hS, hsep⟩

lemma hopSplit_sep_carry (X : List Nat) :
    ∀ (P W : List (List Nat)) (t1 t2 : Nat),
      (∃ S ∈ W, Sep S t1 t2) → ∃ S ∈ (hopSplit X P W).2, Sep S t1 t2 := by
  intro P
  induction P with
  | nil => intro W t1 t2 h; rw [hopSplit]; exact h
  | cons Y Ps ih =>
    intro W t1 t2 h
    by_cases hk : ((Y.filter (fun q => X.contains q)).isEmpty
        || (Y.filter (fun q => !X.contains q)).isEmpty) = true
    · rw [hopSplit_keep hk]
      exact ih W t1 t2 h
    · rw [hopSplit_split (by simpa using hk)]
      exact ih (hopNewW X Y W) t1 t2 (sep_carry_hopNewW h)

lemma hopSplit_newSep (X : List Nat) :
    ∀ (P W : List (List Nat)) (t1 t2 : Nat),
      SameBlock P t1 t2 → ¬ SameBlock (hopSplit X P W).1 t1 t2 →
      ∃ S ∈ (hopSplit X P W).2, Sep S t1 t2 := by
  intro P
  induction P with
  | nil => intro W t1 t2 hsb _; obtain ⟨b, hb, _⟩ := hsb; cases hb
  | cons Y Ps ih =>
    intro W t1 t2 hsb hnsb
    obtain ⟨b, hb, ht1, ht2⟩ := hsb
    by_cases hk : ((Y.filter (fun q => X.contains q)).isEmpty
        || (Y.filter (fun q => !X.contains q)).isEmpty) = true
    · rw [hopSplit_keep hk] at hnsb ⊢
      rcases List.mem_cons.mp hb with rfl | hbr
      · exact absurd ⟨b, List.mem_cons_self _ _, ht1, ht2⟩ hnsb
      · refine ih W t1 t2 ⟨b, hbr, ht1, ht2⟩ ?_
        intro hcontra
        obtain ⟨b2, hb2, h1, h2⟩ := hcontra
        exact hnsb ⟨b2, List.mem_cons_of_mem _ hb2, h1, h2⟩
    · rw [hopSplit_split (by simpa using hk)] at hnsb ⊢
      rcases List.mem_cons.mp hb with rfl | hbr
      · by_cases hX1 : X.contains t1 = true <;> by_cases hX2 : X.contains t2 = true
        · exact absurd ⟨b.filter (fun q => X.contains q), List.mem_cons_self _ _,
            List.mem_filter.mpr ⟨ht1, hX1⟩, List.mem_filter.mpr ⟨ht2, hX2⟩⟩ hnsb
        · have h1 : Sep (b.filter (fun q => X.contains q)) t1 t2 :=
            Or.inl ⟨List.mem_filter.mpr ⟨ht1, hX1⟩,
              fun hc => hX2 (List.mem_filter.mp hc).2⟩
          have h2 : Sep (b.filter (fun q => !X.contains q)) t1 t2 :=
            Or.inr ⟨List.mem_filter.mpr ⟨ht2, by simpa using hX2⟩,
              fun hc => by
                have := (List.mem_filter.mp hc).2
                rw [hX1] at this
                simp at this⟩
          exact hopSplit_sep_carry X Ps (hopNewW X b W) t1 t2
            (exists_sep_hopNewW h1 h2)
        · have h1 : Sep (b.filter (fun q => X.contains q)) t1 t2 :=
            Or.inr ⟨List.mem_filter.mpr ⟨ht2, hX2⟩,
              fun hc => hX1 (List.mem_filter.mp hc).2⟩
          have h2 : Sep (b.filter (fun q => !X.contains q)) t1 t2 :=
            Or.inl ⟨List.mem_filter.mpr ⟨ht1, by simpa using hX1⟩,
              fun hc => by
                have := (List.mem_filter.mp hc).2
                rw [hX2] at this
                simp at this⟩
          exact hopSplit_sep_carry X Ps (hopNewW X b W) t1 t2
            (exists_sep_hopNewW h1 h2)
        · exact absurd ⟨b.filter (fun q => !X.contains q),
            List.mem_cons_of_mem _ (List.mem_cons_self _ _),
            List.mem_filter.mpr ⟨ht1, by simpa using hX1⟩,
            List.mem_filter.mpr ⟨ht2, by simpa using hX2⟩⟩ hnsb
      · refine ih (hopNewW X Y W) t1 t2 ⟨b, hbr, ht1, ht2⟩ ?_
        intro hcontra
        obtain ⟨b2, hb2, h1, h2⟩ := hcontra
        exact hnsb ⟨b2, List.mem_cons_of_mem _ (List.mem_cons_of_mem _ hb2), h1, h2⟩

end Auto

namespace Auto

lemma refines_trans {P3 P2 P1 : List (List Nat)}
    (h32 : Refines P3 P2) (h21 : Refines P2 P1) : Refines P3 P1 := by
  intro b3 hb3
  obtain ⟨b2, hb2, hsub32⟩ := h32 b3 hb3
  obtain ⟨b1, hb1, hsub21⟩ := h21 b2 hb2
  exact ⟨b1, hb1, fun x hx => hsub21 x (hsub32 x hx)⟩

lemma refines_refl (P : List (List Nat)) : Refines P P :=
  fun b hb => ⟨b, hb, fun _ hx => hx⟩

lemma allOrNothing_of_refines {P2 P : List (List Nat)} {X : List Nat}
    (hr : Refines P2 P) (h : AllOrNothing P X) : AllOrNothing P2 X := by
  intro b2 hb2
  obtain ⟨b, hb, hsub⟩ := hr b2 hb2
  rcases h b hb with hin | hout
  · exact Or.inl (fun x hx => hin x (hsub x hx))
  · exact Or.inr (fun x hx => hout x (hsub x hx))

lemma sameBlock_of_refines {P2 P : List (List Nat)} {t1 t2 : Nat}
    (hr : Refines P2 P) (h : SameBlock P2 t1 t2) : SameBlock P t1 t2 := by
  obtain ⟨b2, hb2, h1, h2⟩ := h
  obtain ⟨b, hb, hsub⟩ := hr b2 hb2
  exact ⟨b, hb, hsub _ h1, hsub _ h2⟩

lemma satSet_filter_contains {d : DFA} {Y X : List Nat}
    (hY : SatSet d Y) (hX : SatSet d X) :
    SatSet d (Y.filter (fun q => X.contains q)) := by
  intro p hp q hqs hpq
  have h1 := List.mem_filter.mp hp
  refine List.mem_filter.mpr ⟨hY p h1.1 q hqs hpq, ?_⟩
  exact contains_iff.mpr (hX p (contains_iff.mp h1.2) q hqs hpq)

lemma satSet_filter_not_contains {d : DFA} {Y X : List Nat}
    (hY : SatSet d Y) (hX : SatSet d X) (hYs : ∀ x ∈ Y, x ∈ d.states) :
    SatSet d (Y.filter (fun q => !X.contains q)) := by
  intro p hp q hqs hpq
  have h1 := List.mem_filter.mp hp
  refine List.mem_filter.mpr ⟨hY p h1.1 q hqs hpq, ?_⟩
  simp only [Bool.not_eq_true']
  rw [← Bool.not_eq_true]
  intro hcontra
  have hqX : q ∈ X := contains_iff.mp hcontra
  have hpX : p ∈ X := hX q hqX p (hYs p h1.1) (nerodeEq_symm hpq)
  have := h1.2
  rw [contains_iff.mpr hpX] at this
  simp at this

lemma satSet_predSet {d : DFA} {A : List Nat} {a : Char}
    (hwf : WF d) (ht : Total d) (ha : a ∈ d.alphabet) (hA : SatSet d A) :
    SatSet d (predSet d A a) := by
  intro p hp q hqs hpq
  have h1 := List.mem_filter.mp hp
  obtain ⟨htp, htps⟩ := total_succ hwf ht h1.1 ha
  obtain ⟨htq, htqs⟩ := total_succ hwf ht hqs ha
  have hstep := nerodeEq_step hpq ha htp htq
  refine List.mem_filter.mpr ⟨hqs, ?_⟩
  exact contains_iff.mpr (hA _ (contains_iff.mp h1.2) _ htqs hstep)

lemma hopSplit_satBlocks {d : DFA} {X : List Nat} (hX : SatSet d X) :
    ∀ (P W : List (List Nat)), (∀ b ∈ P, SatSet d b) →
      (∀ b ∈ P, ∀ x ∈ b, x ∈ d.states) →
      ∀ b ∈ (hopSplit X P W).1, SatSet d b := by
  intro P
  induction P with
  | nil => intro W _ _ b hb; rw [hopSplit] at hb; cases hb
  | cons Y Ps ih =>
    intro W hsat hPs b hb
    have hrecsat : ∀ b2 ∈ Ps, SatSet d b2 :=
      fun b2 hb2 => hsat b2 (List.mem_cons_of_mem _ hb2)
    have hrecs : ∀ b2 ∈ Ps, ∀ x ∈ b2, x ∈ d.states :=
      fun b2 hb2 => hPs b2 (List.mem_cons_of_mem _ hb2)
    by_cases hk : ((Y.filter (fun q => X.contains q)).isEmpty
        || (Y.filter (fun q => !X.contains q)).isEmpty) = true
    · rw [hopSplit_keep hk] at hb
      rcases List.mem_cons.mp hb with rfl | hb2
      · exact hsat b (List.mem_cons_self _ _)
      · exact ih W hrecsat hrecs b hb2
    · rw [hopSplit_split (by simpa using hk)] at hb
      have hYsat := hsat Y (List.mem_cons_self _ _)
      have hYs := hPs Y (List.mem_cons_self _ _)
      rcases List.mem_cons.mp hb with rfl | hb2
      · exact satSet_filter_contains hYsat hX
      · rcases List.mem_cons.mp hb2 with rfl | hb3
        · exact satSet_filter_not_contains hYsat hX hYs
        · exact ih (hopNewW X Y W) hrecsat hrecs b hb3

lemma hopNewW_satW {d : DFA} {X Y : List Nat} {W : List (List Nat)}
    (hX : SatSet d X) (hW : ∀ S ∈ W, SatSet d S) (hY : SatSet d Y)
    (hYs : ∀ x ∈ Y, x ∈ d.states) :
    ∀ S ∈ hopNewW X Y W, SatSet d S := by
  intro S hS
  rw [hopNewW] at hS
  by_cases hc : W.contains Y = true
  · rw [if_pos hc] at hS
    rcases List.mem_append.mp hS with h1 | h1
    · exact hW S (List.mem_of_mem_erase h1)
    · rcases List.mem_cons.mp h1 with rfl | h2
      · exact satSet_filter_contains hY hX
      · rw [List.mem_singleton.mp h2]
        exact satSet_filter_not_contains hY hX hYs
  · rw [if_neg (by simpa using hc)] at hS
    by_cases hl : (Y.filter (fun q => X.contains q)).length
        ≤ (Y.filter (fun q => !X.contains q)).length
    · rw [if_pos hl] at hS
      rcases List.mem_append.mp hS with h1 | h1
      · exact hW S h1
      · rw [List.mem_singleton.mp h1]
        exact satSet_filter_contains hY hX
    · rw [if_neg hl] at hS
      rcases List.mem_append.mp hS with h1 | h1
      · exact hW S h1
      · rw [List.mem_singleton.mp h1]
        exact satSet_filter_not_contains hY hX hYs

lemma hopSplit_satW {d : DFA} {X : List Nat} (hX : SatSet d X) :
    ∀ (P W : List (List Nat)), (∀ S ∈ W, SatSet d S) → (∀ b ∈ P, SatSet d b) →
      (∀ b ∈ P, ∀ x ∈ b, x ∈ d.states) →
      ∀ S ∈ (hopSplit X P W).2, SatSet d S := by
  intro P
  induction P with
  | nil => intro W hW _ _ S hS; rw [hopSplit] at hS; exact hW S hS
  | cons Y Ps ih =>
    intro W hW hsat hPs S hS
    have hrecsat : ∀ b2 ∈ Ps, SatSet d b2 :=
      fun b2 hb2 => hsat b2 (List.mem_cons_of_mem _ hb2)
    have hrecs : ∀ b2 ∈ Ps, ∀ x ∈ b2, x ∈ d.states :=
      fun b2 hb2 => hPs b2 (List.mem_cons_of_mem _ hb2)
    by_cases hk : ((Y.filter (fun q => X.contains q)).isEmpty
        || (Y.filter (fun q => !X.contains q)).isEmpty) = true
    · rw [hopSplit_keep hk] at hS
      exact ih W hW hrecsat hrecs S hS
    · rw [hopSplit_split (by simpa using hk)] at hS
      exact ih (hopNewW X Y W)
        (hopNewW_satW hX hW (hsat Y (List.mem_cons_self _ _))
          (hPs Y (List.mem_cons_self _ _)))
        hrecsat hrecs S hS

end Auto

namespace Auto

lemma hopSym_pair (d : DFA) (A : List Nat) (P W : List (List Nat)) (a : Char) :
    hopSym d A (P, W) a = hopSplit (predSet d A a) P W := rfl

/-- Aggregated facts about processing a symbol list for the popped splitter
A: the invariants survive, the partition refines, worklist growth matches
partition growth, separation witnesses are carried and created, and every
processed symbol leaves all blocks unsplit by its predecessor set. -/
lemma hopFold_main {d : DFA} (hwf : WF d) (ht : Total d) (A : List Nat)
    (hA : SatSet d A) :
    ∀ (syms : List Char) (P W : List (List Nat)),
      (∀ a ∈ syms, a ∈ d.alphabet) →
      PartOf d P → SatBlocks d P → (∀ S ∈ W, SatSet d S) →
      PartOf d (syms.foldl (hopSym d A) (P, W)).1 ∧
      SatBlocks d (syms.foldl (hopSym d A) (P, W)).1 ∧
      (∀ S ∈ (syms.foldl (hopSym d A) (P, W)).2, SatSet d S) ∧
      Refines (syms.foldl (hopSym d A) (P, W)).1 P ∧
      ((syms.foldl (hopSym d A) (P, W)).1.length + W.length
        = P.length + (syms.foldl (hopSym d A) (P, W)).2.length) ∧
      (∀ t1 t2, (∃ S ∈ W, Sep S t1 t2) →
        ∃ S ∈ (syms.foldl (hopSym d A) (P, W)).2, Sep S t1 t2) ∧
      (∀ t1 t2, SameBlock P t1 t2 →
        ¬ SameBlock (syms.foldl (hopSym d A) (P, W)).1 t1 t2 →
        ∃ S ∈ (syms.foldl (hopSym d A) (P, W)).2, Sep S t1 t2) ∧
      (∀ a ∈ syms, AllOrNothing (syms.foldl (hopSym d A) (P, W)).1 (predSet d A a)) := by
  intro syms
  induction syms with
  | nil =>
    intro P W _ hP hsat hW
    refine ⟨hP, hsat, hW, refines_refl P, by simp, fun t1 t2 h => h, ?_, by simp⟩
    intro t1 t2 hsb hnsb
    exact absurd hsb hnsb
  | cons a rest ih =>
    intro P W hsyms hP hsat hW
    have ha : a ∈ d.alphabet := hsyms a (List.mem_cons_self _ _)
    have hrest : ∀ x ∈ rest, x ∈ d.alphabet :=
      fun x hx => hsyms x (List.mem_cons_of_mem _ hx)
    have hfold : (a :: rest).foldl (hopSym d A) (P, W)
        = rest.foldl (hopSym d A)
            ((hopSplit (predSet d A a) P W).1, (hopSplit (predSet d A a) P W).2) := by
      rw [List.foldl_cons, hopSym_pair, Prod.mk.eta]
    have hX : SatSet d (predSet d A a) := satSet_predSet hwf ht ha hA
    -- the single-symbol step
    have hP1 : PartOf d (hopSplit (predSet d A a) P W).1 :=
      ⟨hopSplit_ne _ P W hP.1, (hopSplit_flatten_perm _ P W).trans hP.2⟩
    have hsat1 : SatBlocks d (hopSplit (predSet d A a) P W).1 :=
      hopSplit_satBlocks hX P W hsat (fun b hb x hx => partOf_mem_states hP hb hx)
    have hW1 : ∀ S ∈ (hopSplit (predSet d A a) P W).2, SatSet d S :=
      hopSplit_satW hX P W hW hsat (fun b hb x hx => partOf_mem_states hP hb hx)
    have hpair : (hopSplit (predSet d A a) P W).1.length + W.length
        = P.length + (hopSplit (predSet d A a) P W).2.length :=
      hopSplit_length _ P W
    obtain ⟨hPf, hsatf, hWf, hreff, hlenf, hcarryf, hnewf, haonf⟩ :=
      ih (hopSplit (predSet d A a) P W).1 (hopSplit (predSet d A a) P W).2
        hrest hP1 hsat1 hW1
    rw [hfold]
    refine ⟨hPf, hsatf, hWf, ?_, ?_, ?_, ?_, ?_⟩
    · exact refines_trans hreff (hopSplit_refines _ P W)
    · omega
    · intro t1 t2 h
      exact hcarryf t1 t2 (hopSplit_sep_carry _ P W t1 t2 h)
    · intro t1 t2 hsb hnsb
      by_cases hmid : SameBlock (hopSplit (predSet d A a) P W).1 t1 t2
      · exact hnewf t1 t2 hmid hnsb
      · exact hcarryf t1 t2 (hopSplit_newSep _ P W t1 t2 hsb hmid)
    · intro a2 ha2
      rcases List.mem_cons.mp ha2 with rfl | ha2r
      · exact allOrNothing_of_refines hreff (hopSplit_allOrNothing _ P W)
      · exact haonf a2 ha2r

end Auto

namespace Auto

lemma accUniform_of_refines {d : DFA} {P2 P : List (List Nat)}
    (hr : Refines P2 P) (hu : AccUniform d P) : AccUniform d P2 := by
  intro b2 hb2 p hp q hq
  obtain ⟨b, hb, hsub⟩ := hr b2 hb2
  exact hu b hb p (hsub p hp) q (hsub q hq)

lemma sepWitness_self {d : DFA} (hwf : WF d) {P : List (List Nat)}
    (hP : PartOf d P) : SepWitness d P P := by
  intro b hb p hp q hq a ha hnsame
  have hps : p ∈ d.states := partOf_mem_states hP hb hp
  obtain ⟨b1, hb1, ht1⟩ := partOf_cover hP (succD_mem_states hwf hps ha)
  refine ⟨b1, hb1, Or.inl ⟨ht1, ?_⟩⟩
  intro hcontra
  exact hnsame ⟨b1, hb1, ht1, hcontra⟩

lemma stable_of_sepWitness_nil {d : DFA} (hwf : WF d) {P : List (List Nat)}
    (hP : PartOf d P) (h : SepWitness d P []) : Stable d P := by
  intro b hb p hp q hq a ha
  by_cases hsame : SameBlock P (succD d p a) (succD d q a)
  · exact blockIdx_congr_of_sameBlock (partOf_nodup_flatten hwf.1 hP) hsame
  · obtain ⟨S, hS, _⟩ := h b hb p hp q hq a ha hsame
    cases hS

lemma hopSplit_length_ge (X : List Nat) :
    ∀ (P W : List (List Nat)), P.length ≤ (hopSplit X P W).1.length := by
  intro P
  induction P with
  | nil => intro W; rw [hopSplit]
  | cons Y Ps ih =>
    intro W
    by_cases hk : ((Y.filter (fun q => X.contains q)).isEmpty
        || (Y.filter (fun q => !X.contains q)).isEmpty) = true
    · rw [hopSplit_keep hk]
      have := ih W
      simp only [List.length_cons]
      omega
    · rw [hopSplit_split (by simpa using hk)]
      have := ih (hopNewW X Y W)
      simp only [List.length_cons]
      omega

lemma hopFold_length_ge (d : DFA) (A : List Nat) :
    ∀ (syms : List Char) (P W : List (List Nat)),
      P.length ≤ (syms.foldl (hopSym d A) (P, W)).1.length := by
  intro syms
  induction syms with
  | nil => intro P W; simp
  | cons a rest ih =>
    intro P W
    have hfold : (a :: rest).foldl (hopSym d A) (P, W)
        = rest.foldl (hopSym d A)
            ((hopSplit (predSet d A a) P W).1, (hopSplit (predSet d A a) P W).2) := by
      rw [List.foldl_cons, hopSym_pair, Prod.mk.eta]
    rw [hfold]
    exact le_trans (hopSplit_length_ge _ P W)
      (ih (hopSplit (predSet d A a) P W).1 (hopSplit (predSet d A a) P W).2)

lemma hopLoop_good {d : DFA} (hwf : WF d) (ht : Total d) :
    ∀ (fuel : Nat) (P W : List (List Nat)),
      PartOf d P → AccUniform d P → SatBlocks d P → (∀ S ∈ W, SatSet d S) →
      SepWitness d P W →
      2 * d.states.length + W.length < fuel + 2 * P.length →
      GoodFinal d (hopLoop d fuel P W) := by
  intro fuel
  induction fuel with
  | zero =>
    intro P W hP _ _ _ _ hm
    have := partOf_length_le hP
    omega
  | succ fuel ih =>
    intro P W hP hu hsat hW hsep hm
    cases W with
    | nil =>
      rw [hopLoop]
      exact ⟨hP, hu, hsat, stable_of_sepWitness_nil hwf hP hsep⟩
    | cons A W =>
      have hA : SatSet d A := hW A (List.mem_cons_self _ _)
      have hWr : ∀ S ∈ W, SatSet d S := fun S hS => hW S (List.mem_cons_of_mem _ hS)
      obtain ⟨hPf, hsatf, hWf, hreff, hlenf, hcarryf, hnewf, haonf⟩ :=
        hopFold_main hwf ht A hA d.alphabet P W (fun _ ha => ha) hP hsat hWr
      have hgrow := hopFold_length_ge d A d.alphabet P W
      have hloop : hopLoop d (fuel + 1) P (A :: W)
          = hopLoop d fuel (hopProcess d A (P, W)).1 (hopProcess d A (P, W)).2 := by
        rw [hopLoop]
      rw [hloop]
      have hproc : hopProcess d A (P, W) = d.alphabet.foldl (hopSym d A) (P, W) := rfl
      rw [hproc]
      -- the new separation-witness invariant
      have hsep2 : SepWitness d (d.alphabet.foldl (hopSym d A) (P, W)).1
          (d.alphabet.foldl (hopSym d A) (P, W)).2 := by
        intro b2 hb2 p hp q hq a ha hnsame
        have hps : p ∈ d.states := partOf_mem_states hPf hb2 hp
        have hqs : q ∈ d.states := partOf_mem_states hPf hb2 hq
        obtain ⟨b, hb, hsub⟩ := hreff b2 hb2
        by_cases hPsame : SameBlock P (succD d p a) (succD d q a)
        · exact hnewf (succD d p a) (succD d q a) hPsame hnsame
        · obtain ⟨S, hS, hsepS⟩ :=
            hsep b hb p (hsub p hp) q (hsub q hq) a ha hPsame
          rcases List.mem_cons.mp hS with rfl | hSW
          · exfalso
            rcases haonf a ha b2 hb2 with hin | hout
            · rcases hsepS with ⟨h1, h2⟩ | ⟨h1, h2⟩
              · have := hin q hq
                have hq2 : succD d q a ∈ S := by
                  have := List.mem_filter.mp (hin q hq)
                  exact contains_iff.mp this.2
                exact h2 hq2
              · have hp2 : succD d p a ∈ S := by
                  have := List.mem_filter.mp (hin p hp)
                  exact contains_iff.mp this.2
                exact h2 hp2
            · rcases hsepS with ⟨h1, h2⟩ | ⟨h1, h2⟩
              · exact hout p hp (List.mem_filter.mpr ⟨hps, contains_iff.mpr h1⟩)
              · exact hout q hq (List.mem_filter.mpr ⟨hqs, contains_iff.mpr h1⟩)
          · exact hcarryf (succD d p a) (succD d q a) ⟨S, hSW, hsepS⟩
      refine ih _ _ hPf (accUniform_of_refines hreff hu) hsatf hWf hsep2 ?_
      simp only [List.length_cons] at hm
      omega

/-- The Hopcroft worklist loop, run with its proven-sufficient fuel,
delivers a stable saturated partition of the states. -/
lemma hop_final_good {d : DFA} (hwf : WF d) (ht : Total d) :
    GoodFinal d (hopLoop d (2 * d.states.length + 2) (initPartition d) (initPartition d)) := by
  have hP := initPartition_partOf (d := d) hwf
  apply hopLoop_good hwf ht
  · exact hP
  · exact initPartition_accUniform d
  · exact initPartition_satBlocks d
  · exact initPartition_satBlocks d
  · exact sepWitness_self hwf hP
  · have h1 := partOf_length_le hP
    omega

end Auto

namespace Auto

lemma stable_sameBlock_nerode {d : DFA} (hwf : WF d) (ht : Total d)
    {P : List (List Nat)} (hP : PartOf d P) (hu : AccUniform d P)
    (hst : Stable d P) :
    ∀ b ∈ P, ∀ p ∈ b, ∀ q ∈ b, NerodeEq d p q := by
  have main : ∀ s : List Char, (∀ c ∈ s, c ∈ d.alphabet) →
      ∀ b ∈ P, ∀ p ∈ b, ∀ q ∈ b, langFrom d p s = langFrom d q s := by
    intro s
    induction s with
    | nil =>
      intro _ b hb p hp q hq
      exact hu b hb p hp q hq
    | cons c s ih =>
      intro hcs b hb p hp q hq
      have hc : c ∈ d.alphabet := hcs c (List.mem_cons_self _ _)
      have hrest : ∀ x ∈ s, x ∈ d.alphabet :=
        fun x hx => hcs x (List.mem_cons_of_mem _ hx)
      have hps : p ∈ d.states := partOf_mem_states hP hb hp
      have hqs : q ∈ d.states := partOf_mem_states hP hb hq
      obtain ⟨htp, htps⟩ := total_succ hwf ht hps hc
      obtain ⟨htq, htqs⟩ := total_succ hwf ht hqs hc
      have hstab := hst b hb p hp q hq c hc
      obtain ⟨b1, hb1, htp1⟩ := partOf_cover hP htps
      obtain ⟨i, hi, hgi⟩ :=
        blockIdx_eq_of_mem (partOf_nodup_flatten hwf.1 hP) hb1 htp1
      have hj : blockIdx P (succD d q c) = some i := by rw [← hstab, hi]
      obtain ⟨b2, hgj, htq2⟩ := blockIdx_eq_some hj
      rw [hgi] at hgj
      obtain rfl : b1 = b2 := Option.some.inj hgj
      show langFrom d p (c :: s) = langFrom d q (c :: s)
      rw [langFrom, langFrom, htp, htq]
      exact ih hrest b1 hb1 (succD d p c) htp1 (succD d q c) htq2
  intro b hb p hp q hq s hs
  exact main s hs b hb p hp q hq

lemma get?_inj_of_flatten_nodup {P : List (List Nat)} {i j x : Nat}
    {bi bj : List Nat} (hnd : P.flatten.Nodup)
    (hi : P.get? i = some bi) (hj : P.get? j = some bj)
    (hxi : x ∈ bi) (hxj : x ∈ bj) : i = j := by
  induction P generalizing i j with
  | nil => cases hi
  | cons b0 rest ih =>
    have hnd2 : (b0 ++ rest.flatten).Nodup := by simpa using hnd
    rw [List.nodup_append] at hnd2
    cases i with
    | zero =>
      cases j with
      | zero => rfl
      | succ j2 =>
        obtain rfl : b0 = bi := Option.some.inj hi
        have hbj : bj ∈ rest := List.get?_mem (by simpa using hj)
        exact absurd (List.mem_flatten.mpr ⟨bj, hbj, hxj⟩) (hnd2.2.2 hxi)
    | succ i2 =>
      cases j with
      | zero =>
        obtain rfl : b0 = bj := Option.some.inj hj
        have hbi : bi ∈ rest := List.get?_mem (by simpa using hi)
        exact absurd (List.mem_flatten.mpr ⟨bi, hbi, hxi⟩) (hnd2.2.2 hxj)
      | succ j2 =>
        have := ih hnd2.2.1 (by simpa using hi) (by simpa using hj)
        omega

lemma classIdx_headD {d : DFA} (hwf : WF d) {P : List (List Nat)}
    (hP : PartOf d P) {i : Nat} {b : List Nat} (hgi : P.get? i = some b) :
    classIdx P (b.headD 0) = i := by
  have hb : b ∈ P := List.get?_mem hgi
  have hbne : b ≠ [] := hP.1 b hb
  obtain ⟨hbi, hgj⟩ :=
    classIdx_eq_of_mem (partOf_nodup_flatten hwf.1 hP) hb (mem_headD hbne)
  exact get?_inj_of_flatten_nodup (partOf_nodup_flatten hwf.1 hP) hgj hgi
    (mem_headD hbne) (mem_headD hbne)

lemma buildQuotient_pairwise_distinct {d : DFA} (hwf : WF d) (ht : Total d)
    {P : List (List Nat)} (hg : GoodFinal d P) :
    ∀ i j, i < P.length → j < P.length → i ≠ j →
      ¬ NerodeEq (buildQuotient d P) i j := by
  obtain ⟨hP, hu, hsat, hst⟩ := hg
  intro i j hi hj hne hcontra
  obtain ⟨bi, hgi⟩ := exists_get?_of_lt hi
  obtain ⟨bj, hgj⟩ := exists_get?_of_lt hj
  have hbi : bi ∈ P := List.get?_mem hgi
  have hbj : bj ∈ P := List.get?_mem hgj
  have hbine : bi ≠ [] := hP.1 bi hbi
  have hbjne : bj ≠ [] := hP.1 bj hbj
  have hri : bi.headD 0 ∈ d.states := partOf_mem_states hP hbi (mem_headD hbine)
  have hrj : bj.headD 0 ∈ d.states := partOf_mem_states hP hbj (mem_headD hbjne)
  have hreps : NerodeEq d (bi.headD 0) (bj.headD 0) := by
    intro s hs
    have h1 := quot_lang hwf ht hP hu hst s hs (bi.headD 0) hri
    have h2 := quot_lang hwf ht hP hu hst s hs (bj.headD 0) hrj
    rw [classIdx_headD hwf hP hgi] at h1
    rw [classIdx_headD hwf hP hgj] at h2
    have h3 := hcontra s (by simpa [buildQuotient] using hs)
    rw [← h1, ← h2]
    exact h3
  have hrjbi : bj.headD 0 ∈ bi := hsat bi hbi (bi.headD 0) (mem_headD hbine)
    (bj.headD 0) hrj hreps
  exact hne (get?_inj_of_flatten_nodup (partOf_nodup_flatten hwf.1 hP) hgi hgj
    hrjbi (mem_headD hbjne))

lemma all_singleton_length {P : List (List Nat)}
    (h1 : ∀ b ∈ P, b ≠ []) (hnd : P.flatten.Nodup)
    (h2 : ∀ b ∈ P, ∀ p ∈ b, ∀ q ∈ b, p = q) :
    P.flatten.length = P.length := by
  induction P with
  | nil => rfl
  | cons b rest ih =>
    have hnd2 : (b ++ rest.flatten).Nodup := by simpa using hnd
    rw [List.nodup_append] at hnd2
    have hb1 : b.length = 1 := by
      cases b with
      | nil => exact absurd rfl (h1 [] (List.mem_cons_self _ _))
      | cons x t =>
        cases t with
        | nil => rfl
        | cons y u =>
          have hxy : x = y := h2 (x :: y :: u) (List.mem_cons_self _ _) x
            (List.mem_cons_self _ _) y (List.mem_cons_of_mem _ (List.mem_cons_self _ _))
          have := hnd2.1
          rw [hxy] at this
          simp at this
    simp only [List.flatten_cons, List.length_append, List.length_cons, hb1]
    have := ih (fun b2 hb2 => h1 b2 (List.mem_cons_of_mem _ hb2)) hnd2.2.1
      (fun b2 hb2 => h2 b2 (List.mem_cons_of_mem _ hb2))
    omega

/-- A stable saturated partition of the quotient automaton is discrete: the
states of a rebuilt minimizer output are pairwise inequivalent, so a second
refinement cannot merge anything. -/
lemma second_partition_discrete {d : DFA} (hwf : WF d) (ht : Total d)
    {P P2 : List (List Nat)} (hg : GoodFinal d P)
    (hg2 : GoodFinal (buildQuotient d P) P2) :
    P2.length = (buildQuotient d P).states.length := by
  have hwfQ : WF (buildQuotient d P) := buildQuotient_wf hwf hg.1
  have htQ : Total (buildQuotient d P) := buildQuotient_total hwf ht hg.1
  obtain ⟨hP2, hu2, hsat2, hst2⟩ := hg2
  have hsingle : ∀ b ∈ P2, ∀ p ∈ b, ∀ q ∈ b, p = q := by
    intro b hb p hp q hq
    by_contra hne
    have hnerode := stable_sameBlock_nerode hwfQ htQ hP2 hu2 hst2 b hb p hp q hq
    have hps : p ∈ (buildQuotient d P).states := partOf_mem_states hP2 hb hp
    have hqs : q ∈ (buildQuotient d P).states := partOf_mem_states hP2 hb hq
    have hplt : p < P.length := by simpa [buildQuotient, List.mem_range] using hps
    have hqlt : q < P.length := by simpa [buildQuotient, List.mem_range] using hqs
    exact buildQuotient_pairwise_distinct hwf ht hg p q hplt hqlt hne hnerode
  have hflat := all_singleton_length hP2.1
    (partOf_nodup_flatten hwfQ.1 hP2) hsingle
  have hlen := hP2.2.length_eq
  omega

end Auto

/-! Claim theorems. -/

/-- C1: minimization is language-preserving: for every total well-formed DFA
and every string over its alphabet, the minimized automaton accepts the
string iff the original does, for both the table-filling minimizer and the
Hopcroft minimizer of src/3/main.py. -/
theorem c1_minimize_language_preserving (d : Auto.DFA) (s : List Char)
    (hwf : Auto.WF d) (ht : Auto.Total d) (hs : ∀ c ∈ s, c ∈ d.alphabet) :
    Auto.processInput (Auto.minimizeTable d) s = Auto.processInput d s ∧
    Auto.processInput (Auto.minimizeHopcroft d) s = Auto.processInput d s :=
  ⟨Auto.buildQuotient_processInput hwf ht (Auto.table_final_good hwf ht) s hs,
   Auto.buildQuotient_processInput hwf ht (Auto.hop_final_good hwf ht) s hs⟩

/-- Witness for C1 at a concrete three-state DFA and the string aaa. -/
theorem c1_minimize_language_preserving_witness :
    Auto.WF Auto.dMerge ∧ Auto.Total Auto.dMerge ∧
    (∀ c ∈ ['a', 'a', 'a'], c ∈ Auto.dMerge.alphabet) ∧
    Auto.processInput (Auto.minimizeTable Auto.dMerge) ['a', 'a', 'a']
      = Auto.processInput Auto.dMerge ['a', 'a', 'a'] ∧
    Auto.processInput (Auto.minimizeHopcroft Auto.dMerge) ['a', 'a', 'a']
      = Auto.processInput Auto.dMerge ['a', 'a', 'a'] := by
  have hwf : Auto.WF Auto.dMerge := ⟨by decide, by decide, by decide, by decide⟩
  have ht : Auto.Total Auto.dMerge := by
    intro q hq a ha
    fin_cases hq <;> fin_cases ha <;> decide
  have hs : ∀ c ∈ ['a', 'a', 'a'], c ∈ Auto.dMerge.alphabet := by decide
  exact ⟨hwf, ht, hs,
    (c1_minimize_language_preserving Auto.dMerge ['a', 'a', 'a'] hwf ht hs).1,
    (c1_minimize_language_preserving Auto.dMerge ['a', 'a', 'a'] hwf ht hs).2⟩

/-- C9: minimization is idempotent up to state count: for every total
well-formed DFA, re-minimizing the minimized automaton leaves the number of
states unchanged, for both algorithms of src/3/main.py. -/
theorem c9_minimize_idempotent_state_count (d : Auto.DFA)
    (hwf : Auto.WF d) (ht : Auto.Total d) :
    (Auto.minimizeTable (Auto.minimizeTable d)).states.length
      = (Auto.minimizeTable d).states.length ∧
    (Auto.minimizeHopcroft (Auto.minimizeHopcroft d)).states.length
      = (Auto.minimizeHopcroft d).states.length := by
  constructor
  · have hgood := Auto.table_final_good hwf ht
    have hwfQ : Auto.WF (Auto.minimizeTable d) := Auto.buildQuotient_wf hwf hgood.1
    have htQ : Auto.Total (Auto.minimizeTable d) :=
      Auto.buildQuotient_total hwf ht hgood.1
    have hgood2 := Auto.table_final_good hwfQ htQ
    have hdisc := Auto.second_partition_discrete hwf ht hgood hgood2
    calc (Auto.minimizeTable (Auto.minimizeTable d)).states.length
        = (Auto.refineLoop (Auto.minimizeTable d)
            ((Auto.minimizeTable d).states.length + 1)
            (Auto.initPartition (Auto.minimizeTable d))).length := by
          simp [Auto.minimizeTable, Auto.buildQuotient]
      _ = (Auto.minimizeTable d).states.length := hdisc
  · have hgood := Auto.hop_final_good hwf ht
    have hwfQ : Auto.WF (Auto.minimizeHopcroft d) := Auto.buildQuotient_wf hwf hgood.1
    have htQ : Auto.Total (Auto.minimizeHopcroft d) :=
      Auto.buildQuotient_total hwf ht hgood.1
    have hgood2 := Auto.hop_final_good hwfQ htQ
    have hdisc := Auto.second_partition_discrete hwf ht hgood hgood2
    calc (Auto.minimizeHopcroft (Auto.minimizeHopcroft d)).states.length
        = (Auto.hopLoop (Auto.minimizeHopcroft d)
            (2 * (Auto.minimizeHopcroft d).states.length + 2)
            (Auto.initPartition (Auto.minimizeHopcroft d))
            (Auto.initPartition (Auto.minimizeHopcroft d))).length := by
          simp [Auto.minimizeHopcroft, Auto.buildQuotient]
      _ = (Auto.minimizeHopcroft d).states.length := hdisc

/-- Witness for C9 at a concrete three-state DFA. -/
theorem c9_minimize_idempotent_state_count_witness :
    Auto.WF Auto.dEx3 ∧ Auto.Total Auto.dEx3 ∧
    (Auto.minimizeTable (Auto.minimizeTable Auto.dEx3)).states.length
      = (Auto.minimizeTable Auto.dEx3).states.length ∧
    (Auto.minimizeHopcroft (Auto.minimizeHopcroft Auto.dEx3)).states.length
      = (Auto.minimizeHopcroft Auto.dEx3).states.length := by
  have hwf : Auto.WF Auto.dEx3 := ⟨by decide, by decide, by decide, by decide⟩
  have ht : Auto.Total Auto.dEx3 := by
    intro q hq a ha
    fin_cases hq <;> fin_cases ha <;> decide
  exact ⟨hwf, ht, (c9_minimize_idempotent_state_count Auto.dEx3 hwf ht).1,
    (c9_minimize_idempotent_state_count Auto.dEx3 hwf ht).2⟩

/-- C2 (code bug): the equivalence BFS of src/3/main.py is bounded by the
fixed constant max_depth = 10 instead of the product of the state counts:
on a 12-state chain against a 1-state automaton it reports equivalence even
though the two automata disagree on the string of eleven a's.  The fuelOut
constructor is not hit, so the BFS genuinely drained its queue. -/
theorem c2_equivalence_depth_bound_bug :
    Auto.areEquivalent Auto.dChain Auto.dOne 100 = Auto.EqvAnswer.equivalent ∧
    10 < Auto.dChain.states.length * Auto.dOne.states.length ∧
    Auto.processInput Auto.dChain (List.replicate 11 'a') = Except.ok true ∧
    Auto.processInput Auto.dOne (List.replicate 11 'a') = Except.ok false := by
  refine ⟨by decide, by decide, ?_, ?_⟩ <;> rfl

/-- C10: both minimizers and the equivalence BFS read a missing transition
as a self-loop (transitions[state].get(symbol, state)), while direct
simulation reads it as rejection; on a concrete non-total DFA the
equivalence check therefore reports Equivalent although the simulated
languages differ on the string a. -/
theorem c10_selfloop_default_vs_reject :
    (∀ (d : Auto.DFA) (q : Nat) (a : Char), d.trans q a = none →
      Auto.succD d q a = q) ∧
    (∀ (d : Auto.DFA) (q : Nat) (c : Char) (s : List Char),
      c ∈ d.alphabet → d.trans q c = none →
      Auto.processFrom d q (c :: s) = Except.ok false) ∧
    Auto.areEquivalent Auto.dA10 Auto.dB10 100 = Auto.EqvAnswer.equivalent ∧
    Auto.processInput Auto.dA10 ['a'] = Except.ok false ∧
    Auto.processInput Auto.dB10 ['a'] = Except.ok true := by
  refine ⟨?_, ?_, by decide, rfl, rfl⟩
  · intro d q a h
    simp [Auto.succD, h]
  · intro d q c s hc h
    simp [Auto.processFrom, hc, h]

/-- Witness for C10 discharging the hypotheses at the no-transition DFA. -/
theorem c10_selfloop_default_vs_reject_witness :
    Auto.succD Auto.dA10 0 'a' = 0 ∧
    Auto.processFrom Auto.dA10 0 ['a'] = Except.ok false :=
  ⟨c10_selfloop_default_vs_reject.1 Auto.dA10 0 'a' rfl,
   c10_selfloop_default_vs_reject.2.1 Auto.dA10 0 'a' [] (by decide) rfl⟩

/-- C6 (code bug): compiling the escaped literal regex backslash-a raises a
ValueError instead of succeeding, because add_concat_operator inserts a
concatenation dot inside the escape and build_nfa_from_postfix iterates the
postfix string character-wise; a regex ending in a bare backslash makes the
to_postfix scanning loop spin forever without advancing. -/
theorem c6_regex_escape_compile_bug :
    Src4.compileRegex ['\\', 'a'] = Src4.CompileResult.err ∧
    Src4.toRpn ['\\'] = Src4.RpnResult.looping ∧
    Src4.toRpn ['a', '\\'] = Src4.RpnResult.looping := by
  refine ⟨?_, ?_, ?_⟩ <;> rfl

namespace Core3

lemma reachAux_mem_reach (d : Auto.DFA) :
    ∀ (fuel : Nat) (stack reach R : List Nat),
      reachAux d fuel stack reach = some R → ∀ x ∈ reach, x ∈ R := by
  intro fuel
  induction fuel with
  | zero =>
    intro stack reach R h x hx
    rw [reachAux] at h
    by_cases hs : stack.isEmpty
    · rw [if_pos hs] at h
      exact (Option.some.inj h) ▸ hx
    · rw [if_neg hs] at h; cases h
  | succ fuel ih =>
    intro stack reach R h x hx
    cases stack with
    | nil =>
      rw [reachAux] at h
      exact (Option.some.inj h) ▸ hx
    | cons q rest =>
      rw [reachAux] at h
      by_cases hq : reach.contains q
      · rw [if_pos hq] at h
        exact ih rest reach R h x hx
      · rw [if_neg hq] at h
        exact ih _ _ R h x (List.mem_append_left _ hx)

lemma reachAux_mem_stack (d : Auto.DFA) :
    ∀ (fuel : Nat) (stack reach R : List Nat),
      reachAux d fuel stack reach = some R → ∀ x ∈ stack, x ∈ R := by
  intro fuel
  induction fuel with
  | zero =>
    intro stack reach R h x hx
    rw [reachAux] at h
    by_cases hs : stack.isEmpty
    · rw [List.isEmpty_iff.mp hs] at hx
      cases hx
    · rw [if_neg hs] at h; cases h
  | succ fuel ih =>
    intro stack reach R h x hx
    cases stack with
    | nil => cases hx
    | cons q rest =>
      rw [reachAux] at h
      by_cases hq : reach.contains q
      · rw [if_pos hq] at h
        rcases List.mem_cons.mp hx with rfl | hx2
        · exact reachAux_mem_reach d fuel rest reach R h x (Auto.contains_iff.mp hq)
        · exact ih rest reach R h x hx2
      · rw [if_neg hq] at h
        rcases List.mem_cons.mp hx with rfl | hx2
        · exact reachAux_mem_reach d fuel _ _ R h x
            (List.mem_append_right _ (List.mem_singleton.mpr rfl))
        · exact ih _ _ R h x (List.mem_append_right _ hx2)

lemma reachAux_closed (d : Auto.DFA) :
    ∀ (fuel : Nat) (stack reach R : List Nat),
      reachAux d fuel stack reach = some R →
      (∀ x ∈ reach, ∀ a ∈ d.alphabet, ∀ t, d.trans x a = some t →
        t ∈ reach ∨ t ∈ stack) →
      ∀ x ∈ R, ∀ a ∈ d.alphabet, ∀ t, d.trans x a = some t → t ∈ R := by
  intro fuel
  induction fuel with
  | zero =>
    intro stack reach R h hinv x hx a ha t htr
    rw [reachAux] at h
    by_cases hs : stack.isEmpty
    · rw [if_pos hs] at h
      obtain rfl : reach = R := Option.some.inj h
      rcases hinv x hx a ha t htr with h1 | h1
      · exact h1
      · rw [List.isEmpty_iff.mp hs] at h1
        cases h1
    · rw [if_neg hs] at h; cases h
  | succ fuel ih =>
    intro stack reach R h hinv x hx a ha t htr
    cases stack with
    | nil =>
      rw [reachAux] at h
      obtain rfl : reach = R := Option.some.inj h
      rcases hinv x hx a ha t htr with h1 | h1
      · exact h1
      · cases h1
    | cons q rest =>
      rw [reachAux] at h
      by_cases hq : reach.contains q
      · rw [if_pos hq] at h
        refine ih rest reach R h ?_ x hx a ha t htr
        intro y hy a2 ha2 t2 htr2
        rcases hinv y hy a2 ha2 t2 htr2 with h1 | h1
        · exact Or.inl h1
        · rcases List.mem_cons.mp h1 with rfl | h2
          · exact Or.inl (Auto.contains_iff.mp hq)
          · exact Or.inr h2
      · rw [if_neg hq] at h
        refine ih _ _ R h ?_ x hx a ha t htr
        intro y hy a2 ha2 t2 htr2
        rcases List.mem_append.mp hy with h1 | h1
        · rcases hinv y h1 a2 ha2 t2 htr2 with h2 | h2
          · exact Or.inl (List.mem_append_left _ h2)
          · rcases List.mem_cons.mp h2 with rfl | h3
            · exact Or.inl (List.mem_append_right _ (List.mem_singleton.mpr rfl))
            · exact Or.inr (List.mem_append_right _ h3)
        · obtain rfl : y = q := List.mem_singleton.mp h1
          exact Or.inr (List.mem_append_left _
            (List.mem_filterMap.mpr ⟨a2, ha2, htr2⟩))

lemma reachAux_sound (d : Auto.DFA) (Rch : Nat → Prop)
    (hstep : ∀ q, Rch q → ∀ a ∈ d.alphabet, ∀ t, d.trans q a = some t → Rch t) :
    ∀ (fuel : Nat) (stack reach R : List Nat),
      reachAux d fuel stack reach = some R →
      (∀ x ∈ stack, Rch x) → (∀ x ∈ reach, Rch x) → ∀ x ∈ R, Rch x := by
  intro fuel
  induction fuel with
  | zero =>
    intro stack reach R h _ hreach x hx
    rw [reachAux] at h
    by_cases hs : stack.isEmpty
    · rw [if_pos hs] at h
      exact hreach x ((Option.some.inj h) ▸ hx)
    · rw [if_neg hs] at h; cases h
  | succ fuel ih =>
    intro stack reach R h hstack hreach x hx
    cases stack with
    | nil =>
      rw [reachAux] at h
      exact hreach x ((Option.some.inj h) ▸ hx)
    | cons q rest =>
      rw [reachAux] at h
      by_cases hq : reach.contains q
      · rw [if_pos hq] at h
        exact ih rest reach R h
          (fun y hy => hstack y (List.mem_cons_of_mem _ hy)) hreach x hx
      · rw [if_neg hq] at h
        refine ih _ _ R h ?_ ?_ x hx
        · intro y hy
          rcases List.mem_append.mp hy with h1 | h1
          · obtain ⟨a, ha, htr⟩ := List.mem_filterMap.mp h1
            exact hstep q (hstack q (List.mem_cons_self _ _)) a ha y htr
          · exact hstack y (List.mem_cons_of_mem _ h1)
        · intro y hy
          rcases List.mem_append.mp hy with h1 | h1
          · exact hreach y h1
          · have hyq : y = q := List.mem_singleton.mp h1
            rw [hyq]
            exact hstack q (List.mem_cons_self _ _)

end Core3

/-- C7 (counterexample): minimize_dfa_table of src/3/main.py performs no
reachability pruning: on the total DFA with an unreachable accepting state,
the minimized automaton keeps an unreachable state that is also in its
accept set, contradicting the claim for the src/3/main.py minimizer. -/
theorem c7_pruning_counterexample :
    0 ∈ (Auto.minimizeTable Auto.dUnre).accept ∧
    ¬ Auto.Reachable (Auto.minimizeTable Auto.dUnre) 0 := by
  constructor
  · decide
  · intro h
    have key : ∀ x, Auto.Reachable (Auto.minimizeTable Auto.dUnre) x → x = 1 := by
      intro x hx
      induction hx with
      | start => decide
      | step q a t hq ha htrans ihq =>
        rw [ihq] at htrans
        have ha2 : a = 'a' := by
          have : (Auto.minimizeTable Auto.dUnre).alphabet = ['a'] := by decide
          rw [this] at ha
          exact List.mem_singleton.mp ha
        rw [ha2] at htrans
        have : (Auto.minimizeTable Auto.dUnre).trans 1 'a' = some 1 := by decide
        rw [this] at htrans
        exact (Option.some.inj htrans).symm
    exact absurd (key 0 h) (by decide)

/-- C7 (amended): the claim holds for the rebuild step of
src/3/dfa_core/dfa_core.py: whenever build_new_dfa completes, every state
of the returned DFA is reachable from its start state and every member of
its accept set is a state (hence reachable); minimize_dfa_table of
src/3/main.py, in contrast, keeps unreachable blocks (see the
counterexample). -/
theorem c7_pruning_amended (d : Auto.DFA) (P : List (List Nat)) (fuel : Nat)
    (M : Auto.DFA) (h : Core3.buildNewDfa d P fuel = some M) :
    (∀ q ∈ M.states, Auto.Reachable M q) ∧ ∀ q ∈ M.accept, q ∈ M.states := by
  simp only [Core3.buildNewDfa] at h
  obtain ⟨R, hR, hM⟩ := Option.map_eq_some'.mp h
  subst hM
  constructor
  · intro q hq
    have hclosed := Core3.reachAux_closed (Core3.preQuotient d P) fuel
      [(Core3.preQuotient d P).start] [] R hR (by intro x hx; cases hx)
    have hsound := Core3.reachAux_sound (Core3.preQuotient d P)
      (fun x => x ∈ R ∧ Auto.Reachable
        { Core3.preQuotient d P with
            states := R
            trans := fun q2 c => if R.contains q2 then (Core3.preQuotient d P).trans q2 c
              else none
            accept := (Core3.preQuotient d P).accept.filter (fun q2 => R.contains q2) } x)
      ?_ fuel [(Core3.preQuotient d P).start] [] R hR ?_ (by intro x hx; cases hx) q hq
    · exact hsound.2
    · intro x hx a ha t htr
      refine ⟨hclosed x hx.1 a ha t htr, ?_⟩
      refine Auto.Reachable.step x a t hx.2 ha ?_
      show (if R.contains x then (Core3.preQuotient d P).trans x a else none) = some t
      rw [if_pos (Auto.contains_iff.mpr hx.1), htr]
    · intro x hx
      have hxs : x = (Core3.preQuotient d P).start := List.mem_singleton.mp hx
      subst hxs
      refine ⟨Core3.reachAux_mem_stack (Core3.preQuotient d P) fuel _ [] R hR _
        (List.mem_singleton.mpr rfl), ?_⟩
      exact Auto.Reachable.start
  · intro q hq
    have := List.mem_filter.mp hq
    exact Auto.contains_iff.mp this.2

/-- Witness for C7's amended theorem at the scenario-3 automaton with its
discrete partition. -/
theorem c7_pruning_amended_witness :
    Core3.buildNewDfa Auto.dEx3 [[0], [1], [2]] 50 = some Core3.c7M ∧
    (∀ q ∈ Core3.c7M.states, Auto.Reachable Core3.c7M q) ∧
    ∀ q ∈ Core3.c7M.accept, q ∈ Core3.c7M.states := by
  have h : Core3.buildNewDfa Auto.dEx3 [[0], [1], [2]] 50 = some Core3.c7M := rfl
  exact ⟨h, c7_pruning_amended Auto.dEx3 [[0], [1], [2]] 50 Core3.c7M h⟩

/-- C4 (counterexample): DFA.process_input of src/3/main.py raises a
ValueError on a symbol outside the alphabet instead of returning rejection,
refuting the claim that simulation never raises on untrusted input. -/
theorem c4_unknown_symbol_counterexample :
    Auto.processInput Auto.dA10 ['b'] = Except.error () ∧
    Auto.processInput Auto.dA10 ['b'] ≠ Except.ok false := by
  refine ⟨rfl, ?_⟩
  intro h
  rw [show Auto.processInput Auto.dA10 ['b'] = (Except.error () : Except Unit Bool)
    from rfl] at h
  exact Except.noConfusion h

/-- C4 (amended): validate_string of src/1/main.py indeed rejects silently
on an out-of-alphabet symbol, truncating the state sequence, but
DFA.process_input of src/3/main.py and NFA.process_input of src/2/main.py
raise a ValueError as soon as the scan reaches a symbol outside the
alphabet (src/2 additionally admits the epsilon symbol). -/
theorem c4_unknown_symbol_amended :
    (∀ (d : Src1.DFA1) (c : Char) (s : List Char), c ∉ d.alphabet →
      Src1.validateString d (c :: s) = (false, [d.start])) ∧
    (∀ (d : Auto.DFA) (c : Char) (s : List Char), c ∉ d.alphabet →
      Auto.processInput d (c :: s) = Except.error ()) ∧
    (∀ (m : Src2.NFA2) (c : Char) (s : List Char) (fuel : Nat),
      c ∉ m.alphabet → c ≠ 'ε' →
      Src2.processInput m (c :: s) fuel = Except.error ()) := by
  refine ⟨?_, ?_, ?_⟩
  · intro d c s hc
    simp [Src1.validateString, Src1.validateAux, hc]
  · intro d c s hc
    simp [Auto.processInput, Auto.processFrom, hc]
  · intro m c s fuel hc he
    have : ¬ (c ∈ m.alphabet ∨ c = 'ε') := by
      intro hcontra
      rcases hcontra with h1 | h1
      · exact hc h1
      · exact he h1
    simp [Src2.processInput, Src2.processFrom, this]

/-- Witness for C4's amended theorem at concrete automata and the symbol c
outside each alphabet. -/
theorem c4_unknown_symbol_amended_witness :
    Src1.validateString Src1.dEx1 ['c'] = (false, [Src1.dEx1.start]) ∧
    Auto.processInput Auto.dA10 ['c'] = Except.error () ∧
    Src2.processInput Src2.mEx ['c'] 5 = Except.error () :=
  ⟨c4_unknown_symbol_amended.1 Src1.dEx1 'c' [] (by decide),
   c4_unknown_symbol_amended.2.1 Auto.dA10 'c' [] (by decide),
   c4_unknown_symbol_amended.2.2 Src2.mEx 'c' [] 5 (by decide) (by decide)⟩

namespace Src1

lemma validateAux_spec (d : DFA1)
    (hcl : ∀ q ∈ d.stKeys, ∀ c ∈ d.alphabet,
      (d.trans q c).all (fun t => d.stKeys.contains t) = true) :
    ∀ (s : List Char) (q : Nat) (pre : List Nat), q ∈ d.stKeys →
      validateAux d q s (pre ++ [q])
        = ((specTraceRun d.alphabet d.trans (fun x => d.final.contains x) q s).1,
           pre ++ (specTraceRun d.alphabet d.trans (fun x => d.final.contains x) q s).2) := by
  intro s
  induction s with
  | nil =>
    intro q pre _
    simp [validateAux, specTraceRun]
  | cons c rest ih =>
    intro q pre hq
    by_cases hc : c ∈ d.alphabet
    · cases htr : d.trans q c with
      | none => simp [validateAux, specTraceRun, hc, hq, htr]
      | some t =>
        have ht : t ∈ d.stKeys := by
          have := hcl q hq c hc
          rw [htr] at this
          simp only [Option.all_some] at this
          exact Auto.contains_iff.mp this
        have hrec := ih t (pre ++ [q]) ht
        rw [show pre ++ [q] ++ [t] = (pre ++ [q]) ++ [t] from rfl] at hrec
        simp only [validateAux, if_pos hc, if_pos hq, htr]
        rw [hrec]
        simp [specTraceRun, hc, htr]
    · simp [validateAux, specTraceRun, hc]

lemma processWithTrace_spec (d : Auto.DFA) :
    ∀ (s : List Char), (∀ c ∈ s, c ∈ d.alphabet) → ∀ (q : Nat) (pre : List Nat),
      Src4.processWithTrace d q s (pre ++ [q])
        = Except.ok
            ((specTraceRun d.alphabet d.trans (fun x => d.accept.contains x) q s).1,
             pre ++ (specTraceRun d.alphabet d.trans (fun x => d.accept.contains x) q s).2) := by
  intro s
  induction s with
  | nil =>
    intro _ q pre
    simp [Src4.processWithTrace, specTraceRun]
  | cons c rest ih =>
    intro hcs q pre
    have hc : c ∈ d.alphabet := hcs c (List.mem_cons_self _ _)
    have hrest : ∀ x ∈ rest, x ∈ d.alphabet := fun x hx => hcs x (List.mem_cons_of_mem _ hx)
    cases htr : d.trans q c with
    | none => simp [Src4.processWithTrace, specTraceRun, hc, htr]
    | some t =>
      have hrec := ih hrest t (pre ++ [q])
      rw [show pre ++ [q] ++ [t] = (pre ++ [q]) ++ [t] from rfl] at hrec
      simp only [Src4.processWithTrace, if_pos hc, htr]
      rw [hrec]
      simp [specTraceRun, hc, htr]

end Src1

/-- C8 (amended): the trace contract holds as stated for validate_string of
src/1/main.py (out-of-alphabet symbols and missing transitions stop the
state sequence at the last valid state and reject), and for
process_input_with_trace of src/4/main.py on strings over the alphabet
(missing transitions stop the path and reject); an out-of-alphabet symbol
makes the src/4 runner raise a ValueError instead (see the
counterexample). -/
theorem c8_trace_contract_amended :
    (∀ (d : Src1.DFA1) (s : List Char),
      d.start ∈ d.stKeys →
      (∀ q ∈ d.stKeys, ∀ c ∈ d.alphabet,
        (d.trans q c).all (fun t => d.stKeys.contains t) = true) →
      Src1.validateString d s
        = Src1.specTraceRun d.alphabet d.trans (fun x => d.final.contains x) d.start s) ∧
    (∀ (d : Auto.DFA) (s : List Char), (∀ c ∈ s, c ∈ d.alphabet) →
      Src4.processInputWithTrace d s
        = Except.ok (Src1.specTraceRun d.alphabet d.trans
            (fun x => d.accept.contains x) d.start s)) := by
  constructor
  · intro d s hstart hcl
    have := Src1.validateAux_spec d hcl s d.start [] hstart
    rw [List.nil_append] at this
    rw [Src1.validateString, this, List.nil_append]
  · intro d s hs
    have := Src1.processWithTrace_spec d s hs d.start []
    rw [List.nil_append] at this
    rw [Src4.processInputWithTrace, this, List.nil_append]

/-- C8 (counterexample): process_input_with_trace of src/4/main.py raises a
ValueError on an out-of-alphabet symbol instead of returning the claimed
pair with the truncated trace and accepted = false. -/
theorem c8_trace_contract_counterexample :
    Src4.processInputWithTrace Src4.dEx4 ['b'] = Except.error () ∧
    Src4.processInputWithTrace Src4.dEx4 ['b']
      ≠ Except.ok (false, [Src4.dEx4.start]) := by
  refine ⟨rfl, ?_⟩
  intro h
  rw [show Src4.processInputWithTrace Src4.dEx4 ['b']
    = (Except.error () : Except Unit (Bool × List Nat)) from rfl] at h
  exact Except.noConfusion h

/-- Witness for C8's amended theorem at concrete runs: an in-alphabet rejected
string for src/1 and an accepted string for src/4. -/
theorem c8_trace_contract_amended_witness :
    Src1.validateString Src1.dEx1 ['a', 'b', 'a']
      = Src1.specTraceRun Src1.dEx1.alphabet Src1.dEx1.trans
          (fun x => Src1.dEx1.final.contains x) Src1.dEx1.start ['a', 'b', 'a'] ∧
    Src4.processInputWithTrace Src4.dEx4 ['a']
      = Except.ok (Src1.specTraceRun Src4.dEx4.alphabet Src4.dEx4.trans
          (fun x => Src4.dEx4.accept.contains x) Src4.dEx4.start ['a']) :=
  ⟨c8_trace_contract_amended.1 Src1.dEx1 ['a', 'b', 'a'] (by decide) (by decide),
   c8_trace_contract_amended.2 Src4.dEx4 ['a'] (by decide)⟩

/-- C3 (counterexample): nfa_to_dfa of src/4/main.py collects the DFA
alphabet from dfa_states before the worklist runs, when it holds only the
start closure: on the NFA of the regex ab the computed alphabet is {a},
not the set {a, b} of all non-epsilon symbols in the NFA. -/
theorem c3_alphabet_counterexample :
    (Src4.nfaToDfa Src4.nAB 20).map Auto.DFA.alphabet = some ['a'] ∧
    Src4.allSymbols Src4.nAB = ['a', 'b'] ∧
    (Src4.nfaToDfa Src4.nAB 20).map Auto.DFA.alphabet
      ≠ some (Src4.allSymbols Src4.nAB) := by
  refine ⟨rfl, rfl, ?_⟩
  intro h
  rw [show (Src4.nfaToDfa Src4.nAB 20).map Auto.DFA.alphabet = some ['a'] from rfl,
    show Src4.allSymbols Src4.nAB = ['a', 'b'] from rfl] at h
  simp at h

/-- C3 (amended): the alphabet of the determinized DFA is the set of
non-epsilon symbols on transitions of the states in the epsilon-closure of
the start state only, with the placeholder symbol a when that set is
empty; determinization still succeeds in the empty case. -/
theorem c3_alphabet_amended (n : Src4.NFA) (fuel : Nat) (d : Auto.DFA)
    (h : Src4.nfaToDfa n fuel = some d) :
    d.alphabet = if (Src4.startClosureSymbols n).isEmpty then ['a']
      else Src4.startClosureSymbols n := by
  simp only [Src4.nfaToDfa] at h
  obtain ⟨st, _, hd⟩ := Option.map_eq_some'.mp h
  subst hd
  rfl

/-- Witness for C3's amended theorem: the ab-NFA gets alphabet {a}, and the
epsilon-only NFA still determinizes, with the placeholder alphabet. -/
theorem c3_alphabet_amended_witness :
    Src4.nfaToDfa Src4.nAB 20 = some Src4.c3D ∧
    Src4.c3D.alphabet = (if (Src4.startClosureSymbols Src4.nAB).isEmpty then ['a']
      else Src4.startClosureSymbols Src4.nAB) ∧
    Src4.nfaToDfa Src4.nEps 20 = some Src4.c3E ∧
    Src4.c3E.alphabet = (if (Src4.startClosureSymbols Src4.nEps).isEmpty then ['a']
      else Src4.startClosureSymbols Src4.nEps) := by
  have h1 : Src4.nfaToDfa Src4.nAB 20 = some Src4.c3D := rfl
  have h2 : Src4.nfaToDfa Src4.nEps 20 = some Src4.c3E := rfl
  exact ⟨h1, c3_alphabet_amended Src4.nAB 20 Src4.c3D h1,
    h2, c3_alphabet_amended Src4.nEps 20 Src4.c3E h2⟩

/-! Canonical-form and numbering facts for the subset construction. -/

namespace Util

theorem insertSorted_mem (x y : Nat) (l : List Nat) :
    y ∈ insertSorted x l ↔ y = x ∨ y ∈ l := by
  induction l with
  | nil => simp [insertSorted]
  | cons z rest ih =>
    by_cases hxz : x = z
    · subst hxz
      simp [insertSorted]
    · by_cases hlt : x < z
      · simp [insertSorted, hxz, hlt, List.mem_cons]
      · simp [insertSorted, hxz, hlt, List.mem_cons, ih]
        tauto

theorem insertSorted_pairwise (x : Nat) (l : List Nat)
    (h : List.Pairwise (fun a b => a < b) l) :
    List.Pairwise (fun a b => a < b) (insertSorted x l) := by
  induction l with
  | nil => simp [insertSorted]
  | cons z rest ih =>
    rw [List.pairwise_cons] at h
    obtain ⟨hz, hrest⟩ := h
    by_cases hxz : x = z
    · subst hxz
      simp only [insertSorted, if_pos rfl]
      exact List.pairwise_cons.mpr ⟨hz, hrest⟩
    · by_cases hlt : x < z
      · simp only [insertSorted, if_neg hxz, if_pos hlt]
        refine List.pairwise_cons.mpr ⟨?_, List.pairwise_cons.mpr ⟨hz, hrest⟩⟩
        intro b hb
        rcases List.mem_cons.mp hb with hb | hb
        · exact hb ▸ hlt
        · exact Nat.lt_trans hlt (hz b hb)
      · have hzx : z < x :=
          Nat.lt_of_le_of_ne (Nat.not_lt.mp hlt) (fun h => hxz h.symm)
        simp only [insertSorted, if_neg hxz, if_neg hlt]
        refine List.pairwise_cons.mpr ⟨?_, ih hrest⟩
        intro b hb
        rcases (insertSorted_mem x b rest).mp hb with hb | hb
        · exact hb ▸ hzx
        · exact hz b hb

theorem foldl_insertSorted_pairwise (l acc : List Nat)
    (h : List.Pairwise (fun a b => a < b) acc) :
    List.Pairwise (fun a b => a < b)
      (l.foldl (fun a x => insertSorted x a) acc) := by
  induction l generalizing acc with
  | nil => exact h
  | cons x rest ih => exact ih _ (insertSorted_pairwise x acc h)

theorem foldl_insertSorted_mem (l acc : List Nat) (y : Nat) :
    y ∈ l.foldl (fun a x => insertSorted x a) acc ↔ y ∈ acc ∨ y ∈ l := by
  induction l generalizing acc with
  | nil => simp
  | cons x rest ih =>
    simp only [List.foldl_cons, ih, insertSorted_mem, List.mem_cons]
    tauto

theorem canon_pairwise (l : List Nat) :
    List.Pairwise (fun a b => a < b) (canon l) :=
  foldl_insertSorted_pairwise l [] List.Pairwise.nil

theorem canon_mem (l : List Nat) (y : Nat) : y ∈ canon l ↔ y ∈ l := by
  simp [canon, foldl_insertSorted_mem]

theorem pairwise_lt_nodup (l : List Nat)
    (h : List.Pairwise (fun a b => a < b) l) : l.Nodup :=
  h.imp Nat.ne_of_lt

theorem sorted_eq_of_mem_iff (l l' : List Nat)
    (hl : List.Pairwise (fun a b => a < b) l)
    (hl' : List.Pairwise (fun a b => a < b) l')
    (hm : ∀ x, x ∈ l ↔ x ∈ l') : l = l' := by
  haveI : IsAntisymm Nat (fun a b => a < b) :=
    ⟨fun a b h1 h2 => absurd h1 (Nat.lt_asymm h2)⟩
  have hperm : l.Perm l' :=
    (List.perm_ext_iff_of_nodup (pairwise_lt_nodup _ hl)
      (pairwise_lt_nodup _ hl')).mpr hm
  exact List.eq_of_perm_of_sorted hperm hl hl'

theorem canon_eq_of_mem_iff (l l' : List Nat)
    (h : ∀ x, x ∈ l ↔ x ∈ l') : canon l = canon l' :=
  sorted_eq_of_mem_iff _ _ (canon_pairwise l) (canon_pairwise l')
    (fun x => by rw [canon_mem, canon_mem]; exact h x)

end Util

namespace Src4

theorem zip_range_append (L : List (List Nat)) (x : List Nat) :
    (L ++ [x]).zip (List.range (L.length + 1)) =
      L.zip (List.range L.length) ++ [(x, L.length)] := by
  rw [List.range_succ, List.zip_append (by simp)]
  rfl

theorem map_fst_zip_range (L : List (List Nat)) :
    (L.zip (List.range L.length)).map Prod.fst = L :=
  List.map_fst_zip _ _ (by simp)

theorem lookupSet_cons (A : List Nat) (k : Nat)
    (rest : List (List Nat × Nat)) (S : List Nat) :
    lookupSet ((A, k) :: rest) S =
      if A == S then some k else lookupSet rest S := by
  cases hbeq : (A == S) <;> simp [lookupSet, List.find?_cons, hbeq]

theorem lookupSet_zip_get (L : List (List Nat)) (ks : List Nat) (i : Nat)
    (S : List Nat) (j : Nat) (hnd : L.Nodup) (hS : L.get? i = some S)
    (hj : ks.get? i = some j) :
    lookupSet (L.zip ks) S = some j := by
  induction L generalizing ks i with
  | nil => simp at hS
  | cons A Lr ih =>
    cases ks with
    | nil => simp at hj
    | cons k ksr =>
      cases i with
      | zero =>
        simp only [List.get?] at hS hj
        obtain rfl : A = S := by injection hS
        obtain rfl : k = j := by injection hj
        simp [List.zip_cons_cons, lookupSet_cons]
      | succ m =>
        simp only [List.get?] at hS hj
        have hmem : S ∈ Lr := List.get?_mem hS
        have hne : ¬(A == S) = true := by
          simp only [beq_iff_eq]
          rintro rfl
          exact (List.nodup_cons.mp hnd).1 hmem
        rw [List.zip_cons_cons, lookupSet_cons, if_neg hne]
        exact ih ksr m (List.nodup_cons.mp hnd).2 hS hj

theorem lookupSet_of_get (L : List (List Nat)) (i : Nat) (S : List Nat)
    (hnd : L.Nodup) (hS : L.get? i = some S) :
    lookupSet (L.zip (List.range L.length)) S = some i := by
  have hi : i < L.length := by
    by_contra hcon
    rw [List.get?_eq_none.mpr (Nat.not_lt.mp hcon)] at hS
    exact Option.noConfusion hS
  exact lookupSet_zip_get L (List.range L.length) i S i hnd hS
    (List.get?_range hi)

theorem lookupSet_none_notMem (m : List (List Nat × Nat)) (k : List Nat)
    (h : lookupSet m k = none) : k ∉ m.map Prod.fst := by
  induction m with
  | nil => simp
  | cons e rest ih =>
    obtain ⟨A, j⟩ := e
    rw [lookupSet_cons] at h
    by_cases hbeq : (A == k) = true
    · rw [if_pos hbeq] at h
      exact Option.noConfusion h
    · rw [if_neg hbeq] at h
      have hne : A ≠ k := by simpa [beq_iff_eq] using hbeq
      simp only [List.map_cons, List.mem_cons]
      rintro (rfl | hmem)
      · exact hne rfl
      · exact ih h hmem

theorem subInv_subsetSym (ns : List NState) (S : List Nat) (curId : Nat)
    (startSet : List Nat) (st : SubsetSt) (a : Char)
    (h : SubInv startSet st) : SubInv startSet (subsetSym ns S curId st a) := by
  obtain ⟨hzip, hhead, hnd, hsort⟩ := h
  simp only [subsetSym]
  cases hmv : (moveSet ns S a).isEmpty with
  | true => exact ⟨hzip, hhead, hnd, hsort⟩
  | false =>
    simp only [Bool.false_eq_true, if_false]
    cases hl : lookupSet st.stMap (Util.canon (epsClosureOf ns (moveSet ns S a))) with
    | some j => exact ⟨hzip, hhead, hnd, hsort⟩
    | none =>
      have hnmem : Util.canon (epsClosureOf ns (moveSet ns S a)) ∉ st.dStates := by
        have h1 := lookupSet_none_notMem _ _ hl
        rw [hzip, map_fst_zip_range] at h1
        exact h1
      refine ⟨?_, ?_, ?_, ?_⟩
      · show st.stMap ++ _ = (st.dStates ++ _).zip (List.range (st.dStates ++ _).length)
        rw [List.length_append, List.length_cons, List.length_nil,
          zip_range_append, hzip]
      · show (st.dStates ++ _).head? = some startSet
        cases hds : st.dStates with
        | nil => rw [hds] at hhead; exact Option.noConfusion hhead
        | cons B T =>
          rw [hds] at hhead
          simpa using hhead
      · show (st.dStates ++ _).Nodup
        refine List.Nodup.append hnd (List.nodup_singleton _) ?_
        intro x hx hx2
        rw [List.mem_singleton] at hx2
        subst hx2
        exact hnmem hx
      · intro T hT
        rcases List.mem_append.mp hT with hT | hT
        · exact hsort T hT
        · rw [List.mem_singleton] at hT
          subst hT
          exact Util.canon_pairwise _

theorem subInv_foldl (ns : List NState) (S : List Nat) (curId : Nat)
    (startSet : List Nat) (alphabet : List Char) (st : SubsetSt)
    (h : SubInv startSet st) :
    SubInv startSet (alphabet.foldl (subsetSym ns S curId) st) := by
  induction alphabet generalizing st with
  | nil => exact h
  | cons a rest ih => exact ih _ (subInv_subsetSym ns S curId startSet st a h)

theorem subInv_subsetLoop (ns : List NState) (alphabet : List Char)
    (startSet : List Nat) (fuel : Nat) (st st' : SubsetSt)
    (h : SubInv startSet st)
    (hrun : subsetLoop ns alphabet fuel st = some st') :
    SubInv startSet st' := by
  induction fuel generalizing st with
  | zero =>
    rw [subsetLoop] at hrun
    cases hq : st.queue.isEmpty with
    | false => rw [hq] at hrun; simp at hrun
    | true =>
      rw [hq] at hrun
      simp only [if_true] at hrun
      obtain rfl : st = st' := by injection hrun
      exact h
  | succ f ih =>
    rw [subsetLoop] at hrun
    cases hq : st.queue with
    | nil =>
      rw [hq] at hrun
      simp only at hrun
      obtain rfl : st = st' := by injection hrun
      exact h
    | cons S rest =>
      rw [hq] at hrun
      simp only at hrun
      refine ih _ ?_ hrun
      refine subInv_foldl ns S _ startSet alphabet _ ?_
      exact ⟨h.1, h.2.1, h.2.2.1, h.2.2.2⟩

theorem subInv_determinizeRun (n : NFA) (fuel : Nat) (st : SubsetSt)
    (h : determinizeRun n fuel = some st) :
    SubInv (Util.canon (epsClosureOf n.nodes [n.start])) st := by
  simp only [determinizeRun] at h
  refine subInv_subsetLoop n.nodes _ _ fuel _ st ?_ h
  refine ⟨?_, rfl, ?_, ?_⟩
  · simp [List.range_succ]
  · exact List.nodup_singleton _
  · intro T hT
    rw [List.mem_singleton] at hT
    subst hT
    exact Util.canon_pairwise _

end Src4

/-- C5: throughout subset construction the set-to-number map pairs the
discovered canonical sets with 0, 1, 2, ... in strict discovery order, the
start closure is numbered 0, no two DFA states hold the same set of NFA
states, looking up the i-th discovered set always returns i (so a
re-discovered set reuses its number), the canonical key ignores order and
multiplicity of the NFA states, and re-running determinization yields the
identical result. -/
theorem c5_subset_numbering (n : Src4.NFA) (fuel : Nat) (st : Src4.SubsetSt)
    (h : Src4.determinizeRun n fuel = some st) :
    st.stMap = st.dStates.zip (List.range st.dStates.length) ∧
    st.dStates.head? = some (Util.canon (Src4.epsClosureOf n.nodes [n.start])) ∧
    st.dStates.Nodup ∧
    List.Pairwise (fun S T => S.toFinset ≠ T.toFinset) st.dStates ∧
    (∀ i S, st.dStates.get? i = some S → Src4.lookupSet st.stMap S = some i) ∧
    (∀ K Kx : List Nat, (∀ x, x ∈ K ↔ x ∈ Kx) → Util.canon K = Util.canon Kx) ∧
    Src4.determinizeRun n fuel = Src4.determinizeRun n fuel := by
  obtain ⟨hzip, hhead, hnd, hsort⟩ := Src4.subInv_determinizeRun n fuel st h
  refine ⟨hzip, hhead, hnd, ?_, ?_, Util.canon_eq_of_mem_iff, rfl⟩
  · refine List.Pairwise.imp_of_mem ?_ hnd
    intro S T hS hT hne hfin
    refine hne (Util.sorted_eq_of_mem_iff S T (hsort S hS) (hsort T hT) ?_)
    intro x
    rw [← List.mem_toFinset, ← List.mem_toFinset, hfin]
  · intro i S hget
    rw [hzip]
    exact Src4.lookupSet_of_get st.dStates i S hnd hget

/-- Witness for C5: the worklist run on the example NFA completes and its
map is its state list zipped with the discovery numbers. -/
theorem c5_subset_numbering_witness :
    Src4.determinizeRun Src4.nEx 20 = some Src4.stEx ∧
    Src4.stEx.stMap = Src4.stEx.dStates.zip (List.range Src4.stEx.dStates.length) ∧
    Src4.stEx.dStates.head? =
      some (Util.canon (Src4.epsClosureOf Src4.nEx.nodes [Src4.nEx.start])) := by
  have h : Src4.determinizeRun Src4.nEx 20 = some Src4.stEx := rfl
  obtain ⟨h1, h2, _⟩ := c5_subset_numbering Src4.nEx 20 Src4.stEx h
  exact ⟨h, h1, h2⟩
